import Mathlib

/-!
Verification development for the MemoChater memory-augmenting middleware.

This file gives a shallow embedding, in Lean 4, of the core data structures and
operations of the `memo-chater` crate, translated directly from the Rust source:

* the conversation packet and its turn-lifecycle operations
  (`src/pipeline/packet.rs`);
* the context cleaner processor (`src/pipeline/processors/context_cleaner/mod.rs`);
* the pipeline dispatcher (`src/pipeline/dispatcher.rs`);
* the thinking-tag filters, both the per-character streaming state machine
  (`src/ai/client.rs`, `chat_stream_with_model`) and the regex-based
  `strip_thinking_tags`;
* the short-term memory vectorizer (`src/pipeline/processors/short_term_vectorizer/mod.rs`);
* the conversation-memory search and `cosine_similarity` (`src/assistant_api.rs`);
* the dimension graph, its temporal insertion, the single-graph query, and the
  multi-graph query (`src/graph/*`).

Modelling conventions:
* Rust `f32`/`f64` values are modelled as `ℚ`.  `f32::sqrt` is modelled by
  `Rat.sqrt` (only it being zero exactly on zero matters to the theorems here).
* `DateTime<Utc>` timestamps are modelled as `Int` (seconds); RFC3339 rendering
  is modelled by `toString`.
* `HashMap`s that the code iterates or uses through the `entry` API are
  modelled as association lists in first-insertion order.
* Rust's stable `sort_by` with comparator `b.key.partial_cmp(&a.key)` is
  modelled as the stable `List.insertionSort` with the relation
  `fun a b => b.key ≤ a.key`.
* Transcendental helpers (`compute_temporal_weight`, which uses `exp`, and the
  string formatter `format_time_diff`) are passed to the embedded operations as
  explicit function parameters `cw`/`fmt`; everything proved here holds for
  every choice of these functions.
-/

namespace MemoChater

/-! ## Messages and memory entries (`src/types/message.rs`, `src/types/memory.rs`) -/

/-- `ChatMessage` from `src/types/message.rs`: `role` ∈ {system, user, assistant}. -/
structure ChatMessage where
  role : String
  content : String
deriving DecidableEq, Repr

def ChatMessage.system (content : String) : ChatMessage := ⟨"system", content⟩

def ChatMessage.user (content : String) : ChatMessage := ⟨"user", content⟩

def ChatMessage.assistant (content : String) : ChatMessage := ⟨"assistant", content⟩

/-- `ThinkingSource` from `src/types/memory.rs`. -/
inductive ThinkingSource where
  | UserAnalysis
  | MemoryRetrieval
  | ToolResult
  | SelfReflection
deriving DecidableEq, Repr

/-- `MemorySource` from `src/types/memory.rs`. -/
inductive MemorySource where
  | LongTermRetrieval
  | CurrentConversation
  | ToolResult
deriving DecidableEq, Repr

/-- `ShortTermMemory` from `src/types/memory.rs`.  Note a snapshot drift in the
source: `types/memory.rs` declares the struct without `relevance` and
`confidence`, while `pipeline/packet.rs` (relevance decay, tests) and the
short-term vectorizer (`memory.confidence`) read those fields; both are modelled
here so the consumers can be embedded faithfully. -/
structure ShortTermMemory where
  id : String
  summary : String
  content : String
  memory_type : String
  should_expand : Bool
  relevance : ℚ
  confidence : ℚ
  source : MemorySource
  timestamp : Int
deriving DecidableEq, Repr

/-- Scalar JSON values, standing in for the leaves of `serde_json::Value`. -/
inductive JsonPrim where
  | str : String → JsonPrim
  | num : Int → JsonPrim
  | bool : Bool → JsonPrim
deriving DecidableEq, Repr

/-- Minimal JSON values, standing in for `serde_json::Value` processor state
(the processors embedded here only store flat objects of scalars). -/
inductive Json where
  | prim : JsonPrim → Json
  | obj : List (String × JsonPrim) → Json
deriving DecidableEq, Repr

/-! ## Conversation packet (`src/pipeline/packet.rs`) -/

/-- `ThinkingEntry` from `src/pipeline/packet.rs`. -/
structure ThinkingEntry where
  content : String
  source : ThinkingSource
  timestamp : Int
deriving DecidableEq, Repr

/-- `ConversationTurn` from `src/pipeline/packet.rs`. -/
structure ConversationTurn where
  user_message : String
  assistant_message : String
  timestamp : Int
deriving DecidableEq, Repr

/-- `ConversationPacket` from `src/pipeline/packet.rs`.  `current_states` models
the `HashMap<String, Value>`; `history_states` models the `VecDeque` with the
list head as the deque front. -/
structure ConversationPacket where
  assistant_id : String
  topic_id : String
  user_id : Option String
  user_name : String
  assistant_name : String
  messages : List ChatMessage
  thinking_pool : List ThinkingEntry
  short_term_memory : List ShortTermMemory
  current_states : List (String × Json)
  history_states : List (List (String × Json))
  conversation_turns : List ConversationTurn
  last_processor : Option String
  user_input : String
  ai_response : Option String
  last_request_messages : List ChatMessage
  main_model : Option String
  processor_model : Option String
  embedding_model : Option String
deriving DecidableEq, Repr

namespace ConversationPacket

/-- `ConversationPacket::new`. -/
def new (assistant_id topic_id user_name assistant_name : String) : ConversationPacket :=
  { assistant_id := assistant_id
    topic_id := topic_id
    user_id := none
    user_name := user_name
    assistant_name := assistant_name
    messages := []
    thinking_pool := []
    short_term_memory := []
    current_states := []
    history_states := []
    conversation_turns := []
    last_processor := none
    user_input := ""
    ai_response := none
    last_request_messages := []
    main_model := none
    processor_model := none
    embedding_model := none }

/-- `ConversationPacket::append_user_message`. -/
def append_user_message (p : ConversationPacket) (content : String) : ConversationPacket :=
  { p with messages := p.messages ++ [ChatMessage.user content], user_input := content }

/-- `ConversationPacket::append_assistant_message`. -/
def append_assistant_message (p : ConversationPacket) (content : String) : ConversationPacket :=
  { p with messages := p.messages ++ [ChatMessage.assistant content], ai_response := some content }

/-- `ConversationPacket::set_processor_state`: `HashMap::insert`, modelled on the
association list (replace the key's value if present, else append). -/
def set_processor_state (p : ConversationPacket) (name : String) (state : Json) :
    ConversationPacket :=
  if p.current_states.any (fun kv => kv.1 == name) then
    { p with current_states :=
        p.current_states.map (fun kv => if kv.1 == name then (name, state) else kv) }
  else
    { p with current_states := p.current_states ++ [(name, state)] }

/-- The `while self.history_states.len() > 2 { self.history_states.pop_back(); }`
loop of `end_turn`, ported literally. -/
def pop_back_while_gt_two (l : List (List (String × Json))) : List (List (String × Json)) :=
  if 2 < l.length then pop_back_while_gt_two l.dropLast else l
termination_by l.length
decreasing_by
  simp only [List.length_dropLast]
  omega

/-- `ConversationPacket::end_turn`: push the current states to the history front
when non-empty, trim the history to 2 frames from the back, clear the
per-turn fields. -/
def end_turn (p : ConversationPacket) : ConversationPacket :=
  let h := if p.current_states.isEmpty then p.history_states
           else p.current_states :: p.history_states
  { p with
    history_states := pop_back_while_gt_two h
    current_states := []
    last_processor := none
    user_input := ""
    ai_response := none }

end ConversationPacket

/-- The trimming loop keeps exactly the first two frames. -/
theorem pop_back_while_gt_two_eq_take (l : List (List (String × Json))) :
    ConversationPacket.pop_back_while_gt_two l = l.take 2 := by
  by_cases h : 2 < l.length
  · rw [ConversationPacket.pop_back_while_gt_two]
    simp only [h, if_true]
    rw [pop_back_while_gt_two_eq_take l.dropLast]
    rw [List.dropLast_eq_take, List.take_take]
    congr 1
    omega
  · rw [ConversationPacket.pop_back_while_gt_two]
    simp only [h, if_false]
    exact (List.take_of_length_le (by omega)).symm
termination_by l.length
decreasing_by simp only [List.length_dropLast]; omega

/-! ## Context cleaner (`src/pipeline/processors/context_cleaner/mod.rs`) -/

/-- Byte/char-level `str::starts_with`, on the underlying character list. -/
def strStartsWith (s pre : String) : Bool :=
  pre.data.isPrefixOf s.data

namespace ContextCleaner

/-- `ContextCleaner::should_remove_short_term_memory_injection`. -/
def should_remove_short_term_memory_injection (msg : ChatMessage) : Bool :=
  msg.role == "user" && strStartsWith msg.content "【系统消息-短期记忆】现在为你注入"

/-- `ContextCleaner::should_remove_short_term_memory_expansion`. -/
def should_remove_short_term_memory_expansion (msg : ChatMessage) : Bool :=
  msg.role == "user" && strStartsWith msg.content "【系统消息-短期记忆】根据"

/-- `ContextCleaner::should_remove`. -/
def should_remove (msg : ChatMessage) : Bool :=
  should_remove_short_term_memory_injection msg
    || should_remove_short_term_memory_expansion msg

/-- `ContextCleaner::process`: retain the messages not matched by
`should_remove`, then record the processor state. -/
def process (packet : ConversationPacket) : ConversationPacket :=
  let before_count := packet.messages.length
  let packet := { packet with messages := packet.messages.filter (fun m => !should_remove m) }
  let after_count := packet.messages.length
  let removed_count := before_count - after_count
  packet.set_processor_state "ContextCleaner" (Json.obj
    [("cleaned", JsonPrim.bool true),
     ("removed_count", JsonPrim.num removed_count),
     ("before_count", JsonPrim.num before_count),
     ("after_count", JsonPrim.num after_count)])

end ContextCleaner

/-! ## Thinking-tag filters (`src/ai/client.rs`) -/

/-- State of the per-character thinking-tag filter inside
`AiClient::chat_stream_with_model`. -/
structure ThinkFilterState where
  in_thinking_tag : Bool
  tag_buffer : List Char
deriving DecidableEq, Repr

/-- Initial filter state before the first streamed chunk. -/
def ThinkFilterState.initial : ThinkFilterState := ⟨false, []⟩

/-- One step of the streaming filter: the body of the
`for ch in content.chars()` loop in `chat_stream_with_model`.  Returns the new
state and the list of strings yielded (forwarded to the client) for this
character. -/
def thinkFilterStep (s : ThinkFilterState) (ch : Char) : ThinkFilterState × List String :=
  if ch = '<' then
    ({ s with tag_buffer := [ch] }, [])
  else if !s.tag_buffer.isEmpty then
    let buf := s.tag_buffer ++ [ch]
    if "<think".data.isPrefixOf buf && ch == '>' then
      ({ in_thinking_tag := true, tag_buffer := [] }, [])
    else if s.in_thinking_tag && "</think>".data.isSuffixOf buf then
      ({ in_thinking_tag := false, tag_buffer := [] }, [])
    else if s.in_thinking_tag && "</thinking>".data.isSuffixOf buf then
      ({ in_thinking_tag := false, tag_buffer := [] }, [])
    else if !s.in_thinking_tag && !("<think".data.isPrefixOf buf) && ch == '>' then
      ({ s with tag_buffer := [] }, [String.mk buf])
    else
      ({ s with tag_buffer := buf }, [])
  else if !s.in_thinking_tag then
    (s, [String.mk [ch]])
  else
    (s, [])

/-- Run the streaming filter over one delta-content string. -/
def thinkFilterString (s : ThinkFilterState) (content : String) :
    ThinkFilterState × List String :=
  content.data.foldl
    (fun acc ch =>
      let (s', out) := thinkFilterStep acc.1 ch
      (s', acc.2 ++ out))
    (s, [])

/-- Run the streaming filter over a whole sequence of provider chunks, carrying
the state across chunk boundaries exactly as the `async_stream` loop does. -/
def thinkFilterChunks (s : ThinkFilterState) (chunks : List String) :
    ThinkFilterState × List String :=
  chunks.foldl
    (fun acc chunk =>
      let (s', out) := thinkFilterString acc.1 chunk
      (s', acc.2 ++ out))
    (s, [])

/-! `AiClient::strip_thinking_tags` applies the regex
`(?s)<think(?:ing)?[^>]*>.*?</think(?:ing)?>` with `Regex::replace_all` and
empty replacement, then trims the result.  The functions below implement the
same match semantics on character lists (leftmost match, non-overlapping,
lazy body, greedy optional `ing`). -/

/-- Consume `(?:ing)?[^>]*>`: everything up to and including the first `>`.
Returns the remainder after the `>` when one exists. -/
def matchTagOpenRest : List Char → Option (List Char)
  | [] => none
  | c :: rest => if c = '>' then some rest else matchTagOpenRest rest

/-- Match the closing tag `</think(?:ing)?>` at the head of the input (greedy
optional `ing` first).  Returns the remainder after the closing tag. -/
def matchThinkCloseHere (cs : List Char) : Option (List Char) :=
  if "</thinking>".data.isPrefixOf cs then some (cs.drop 11)
  else if "</think>".data.isPrefixOf cs then some (cs.drop 8)
  else none

/-- Lazy `.*?</think(?:ing)?>`: scan for the earliest closing tag. -/
def findThinkClose : List Char → Option (List Char)
  | [] => none
  | c :: rest =>
    match matchThinkCloseHere (c :: rest) with
    | some r => some r
    | none => findThinkClose rest

/-- Match the full thinking-span regex at the head of the input; on success
return the remainder after the whole span. -/
def matchThinkSpanHere (cs : List Char) : Option (List Char) :=
  if "<think".data.isPrefixOf cs then
    match matchTagOpenRest (cs.drop 6) with
    | some body => findThinkClose body
    | none => none
  else none

/-- `Regex::replace_all` with empty replacement: delete every leftmost,
non-overlapping match.  Fuel-indexed so the definition is structural (the fuel
is initialised to the input length, which always suffices because every match
consumes at least one character). -/
def stripSpansFuel : Nat → List Char → List Char
  | 0, cs => cs
  | _ + 1, [] => []
  | fuel + 1, c :: rest =>
    match matchThinkSpanHere (c :: rest) with
    | some remainder => stripSpansFuel fuel remainder
    | none => c :: stripSpansFuel fuel rest

/-- `str::trim`: drop leading and trailing whitespace. -/
def rustTrim (cs : List Char) : List Char :=
  ((cs.dropWhile Char.isWhitespace).reverse.dropWhile Char.isWhitespace).reverse

/-- `AiClient::strip_thinking_tags`. -/
def strip_thinking_tags (content : String) : String :=
  String.mk (rustTrim (stripSpansFuel content.data.length content.data))

/-! ## Pipeline dispatcher (`src/pipeline/dispatcher.rs`) -/

/-- `PipelineTiming` from `src/pipeline/dispatcher.rs`. -/
inductive PipelineTiming where
  | OnUserMessage
  | BeforeAiCall
  | OnStreamStart
  | OnStreamChunk
  | AfterAiResponse
  | BackgroundProcess
deriving DecidableEq, Repr

/-- A processor entry of the pipeline configuration (`src/pipeline/config.rs`):
`{name, description}`. -/
structure ProcessorEntry where
  name : String
  description : String
deriving DecidableEq, Repr

/-- `PipelineConfig` from `src/pipeline/config.rs`: one ordered entry list per
timing. -/
structure PipelineConfig where
  on_user_message : List ProcessorEntry
  before_ai_call : List ProcessorEntry
  on_stream_start : List ProcessorEntry
  on_stream_chunk : List ProcessorEntry
  after_ai_response : List ProcessorEntry
  background_process : List ProcessorEntry
deriving Repr

/-- The `Processor` trait (`src/pipeline/processor.rs`), restricted to what the
dispatcher consumes: the `requires_memory` flag and the `process` body.
`process` takes `&mut packet` in Rust; here it returns the mutated packet
together with `none` on success or `some err` on failure (in the failure case
the returned packet is the possibly partially mutated one). -/
structure Processor where
  requires_memory : Bool
  process : ConversationPacket → Option String × ConversationPacket

/-- `DispatcherError` from `src/pipeline/dispatcher.rs`. -/
inductive DispatcherError where
  | ContextCreation : String → DispatcherError
  | ProcessorFailed : String → DispatcherError
deriving DecidableEq, Repr

/-- The `match timing` that selects the configured entry list. -/
def selectEntries (timing : PipelineTiming) (config : PipelineConfig) : List ProcessorEntry :=
  match timing with
  | .OnUserMessage => config.on_user_message
  | .BeforeAiCall => config.before_ai_call
  | .OnStreamStart => config.on_stream_start
  | .OnStreamChunk => config.on_stream_chunk
  | .AfterAiResponse => config.after_ai_response
  | .BackgroundProcess => config.background_process

/-- The `for entry in processor_names` loop of `PipelineDispatcher::dispatch`:
unknown names are skipped, memory-requiring processors are skipped without
memory, failures keep the partially mutated packet, successes additionally
stamp `last_processor`.  The registry function models the
`HashMap<String, Arc<dyn Processor>>` lookup. -/
def dispatchLoop (registry : String → Option Processor) (memory_enabled : Bool) :
    List ProcessorEntry → ConversationPacket → ConversationPacket
  | [], packet => packet
  | entry :: rest, packet =>
    match registry entry.name with
    | none => dispatchLoop registry memory_enabled rest packet
    | some proc =>
      if proc.requires_memory && !memory_enabled then
        dispatchLoop registry memory_enabled rest packet
      else
        match proc.process packet with
        | (none, p') =>
          dispatchLoop registry memory_enabled rest { p' with last_processor := some entry.name }
        | (some _, p') => dispatchLoop registry memory_enabled rest p'

/-- `PipelineDispatcher::dispatch`, including the early `return Ok(())` on an
empty entry list. -/
def dispatch (registry : String → Option Processor) (timing : PipelineTiming)
    (packet : ConversationPacket) (pipeline_config : PipelineConfig)
    (memory_enabled : Bool) : Except DispatcherError ConversationPacket :=
  let processor_names := selectEntries timing pipeline_config
  if processor_names.isEmpty then .ok packet
  else .ok (dispatchLoop registry memory_enabled processor_names packet)

/-- Modelled from the spec's dispatch contract, for comparison with the
implementation: one fold step per configured entry — "Resolve by name; if
missing, log and skip.  If `requires_memory` is true and topic is not
memory-enabled, skip.  Run `process`; on error, log and proceed; on success,
stamp `packet.last_processor`." -/
def dispatchStepSpec (registry : String → Option Processor) (memory_enabled : Bool)
    (packet : ConversationPacket) (entry : ProcessorEntry) : ConversationPacket :=
  match registry entry.name with
  | none => packet
  | some proc =>
    if proc.requires_memory && !memory_enabled then packet
    else
      match proc.process packet with
      | (none, p') => { p' with last_processor := some entry.name }
      | (some _, p') => p'

/-! ## Short-term vectorizer (`src/pipeline/processors/short_term_vectorizer/mod.rs`) -/

/-- `VectorizedMemory` as declared in
`src/pipeline/processors/short_term_vectorizer/mod.rs`: note it carries a
single `embedding` field. -/
structure VectorizedMemory where
  id : String
  summary : String
  content : String
  memory_type : String
  source : String
  timestamp : String
  should_expand : Bool
  confidence : ℚ
  embedding : List ℚ
deriving DecidableEq, Repr

/-- `ShortTermVectorizer::memory_source_to_string`. -/
def memory_source_to_string (memory : ShortTermMemory) : String :=
  match memory.source with
  | .LongTermRetrieval => "LongTermRetrieval"
  | .CurrentConversation => "CurrentConversation"
  | .ToolResult => "ToolResult"

/-- `ShortTermVectorizer::vectorize_memory`.  `embed` models
`ctx.ai_client.embedding_with_model(·, Some(ctx.embedding_model()))` for the
context's fixed embedding model. -/
def vectorize_memory (embed : String → List ℚ) (memory : ShortTermMemory) : VectorizedMemory :=
  { id := memory.id
    summary := memory.summary
    content := memory.content
    memory_type := memory.memory_type
    source := memory_source_to_string memory
    timestamp := toString memory.timestamp
    should_expand := memory.should_expand
    confidence := memory.confidence
    embedding := embed memory.summary }

/-! ## Conversation-memory search (`src/assistant_api.rs`) -/

/-- `cosine_similarity` from `src/assistant_api.rs`: guard on length mismatch
or emptiness, compute `dot`, `norm_a = sqrt(Σ x²)`, `norm_b`, guard on a zero
norm, else divide (the Rust `let` bindings are inlined). -/
def cosine_similarity (a b : List ℚ) : ℚ :=
  if a.length ≠ b.length ∨ a = [] then 0
  else if Rat.sqrt ((a.map (fun x => x * x)).sum) = 0
          ∨ Rat.sqrt ((b.map (fun x => x * x)).sum) = 0 then 0
  else (List.zipWith (· * ·) a b).sum
        / (Rat.sqrt ((a.map (fun x => x * x)).sum)
           * Rat.sqrt ((b.map (fun x => x * x)).sum))

/-- `VectorFileMetadata` from the vectorizer module (shared by
`assistant_api.rs`). -/
structure VectorFileMetadata where
  embedding_model : String
  dimension : Nat
  last_updated : String
deriving DecidableEq, Repr

/-- The vectorized-record shape that `assistant_api.rs` reads and writes
(field accesses `mem.summary_embedding` / `mem.content_embedding` in
`search_conversation_memory`, `update_conversation_memory` and
`rebuild_conversation_memory`, matching the spec's ShortTermVectorFile JSON
schema).  The snapshot under `src/` is internally inconsistent here: the struct
those functions import from the vectorizer module instead declares a single
`embedding` field (see `VectorizedMemory` above). -/
structure ApiVectorizedMemory where
  id : String
  summary : String
  content : String
  memory_type : String
  source : String
  timestamp : String
  should_expand : Bool
  confidence : ℚ
  summary_embedding : List ℚ
  content_embedding : List ℚ
deriving DecidableEq, Repr

/-- The short-term vector file as consumed by the search surface. -/
structure ApiShortTermVectorFile where
  vectors : List ApiVectorizedMemory
  metadata : VectorFileMetadata
deriving DecidableEq, Repr

/-- `SearchResult` from `src/assistant_api.rs`. -/
structure SearchResult where
  memory : ApiVectorizedMemory
  score : ℚ
deriving DecidableEq, Repr

/-- The pure core of `search_conversation_memory` (the surrounding path and
file I/O is out of scope): embed the query with the file's recorded model,
compute the weighted cosine score per record, sort descending (stably), and
truncate to `top_k`.  `embed` models
`state.ai_client.embedding_with_model(query, Some(model))` as a function of
(model, query). -/
def search_conversation_memory (embed : String → String → List ℚ)
    (file : ApiShortTermVectorFile) (query : String) (top_k : Nat) : List SearchResult :=
  if file.vectors = [] then []
  else
    let query_embedding := embed file.metadata.embedding_model query
    let results := file.vectors.map (fun mem =>
      let summary_score := cosine_similarity query_embedding mem.summary_embedding
      let content_score := cosine_similarity query_embedding mem.content_embedding
      SearchResult.mk mem (0.4 * summary_score + 0.6 * content_score))
    let sorted := List.insertionSort (fun a b => b.score ≤ a.score) results
    sorted.take top_k

/-! ## Dimension graph (`src/graph/types.rs`, `src/graph/dimension_graph.rs`) -/

/-- Rust's `Iterator::position`: index of the first element satisfying the
predicate. -/
def position {α : Type} (p : α → Bool) : List α → Option Nat
  | [] => none
  | x :: t => if p x then some 0 else (position p t).map (· + 1)

theorem position_eq_none_iff {α : Type} (p : α → Bool) (l : List α) :
    position p l = none ↔ ∀ x ∈ l, p x = false := by
  induction l with
  | nil => simp [position]
  | cons x t ih =>
    cases hx : p x with
    | true => simp [position, hx]
    | false => simp [position, hx, Option.map_eq_none, ih]

theorem position_eq_some {α : Type} (p : α → Bool) (l : List α) (i : Nat)
    (h : position p l = some i) : ∃ hi : i < l.length, p (l.get ⟨i, hi⟩) = true := by
  induction l generalizing i with
  | nil => simp [position] at h
  | cons x t ih =>
    by_cases hx : p x
    · simp [position, hx] at h
      subst h
      exact ⟨by simp, by simpa using hx⟩
    · simp [position, hx] at h
      obtain ⟨j, hj, rfl⟩ := h
      obtain ⟨hjl, hpj⟩ := ih j hj
      exact ⟨by simpa using Nat.succ_lt_succ hjl, by simpa using hpj⟩

/-- Erasing the element found by `position` decrements the match count by one. -/
theorem countP_eraseIdx_position {α : Type} (p : α → Bool) (l : List α) (i : Nat)
    (h : position p l = some i) : (l.eraseIdx i).countP p = l.countP p - 1 := by
  induction l generalizing i with
  | nil => simp [position] at h
  | cons x t ih =>
    by_cases hx : p x
    · simp [position, hx] at h
      subst h
      simp [List.eraseIdx, List.countP_cons, hx]
    · simp [position, hx] at h
      obtain ⟨j, hj, rfl⟩ := h
      simp [List.eraseIdx, List.countP_cons, hx, ih j hj]

/-- `NodeFeatures` from `src/graph/types.rs`; only the temporal feature is
relevant to the embedded operations.  (`entities`, `emotion`, `topics` and the
cached `embedding` are opaque payload the graph operations never read.) -/
structure NodeFeatures where
  timestamp : Option Int
deriving DecidableEq, Repr

/-- Graph `Node` from `src/graph/types.rs`.  The `memory_ref` and `created_at`
payload fields are opaque to every operation embedded here and are omitted. -/
structure Node where
  id : String
  features : NodeFeatures
deriving DecidableEq, Repr

/-- Directed weighted `Edge` from `src/graph/types.rs` (`created_at` and
`auto_generated` are opaque payload and omitted). -/
structure Edge where
  source : String
  target : String
  weight : ℚ
  reason : String
deriving DecidableEq, Repr

/-- `Edge::new`. -/
def Edge.new (source target : String) (weight : ℚ) (reason : String) : Edge :=
  ⟨source, target, weight, reason⟩

/-- `GraphMetadata` counters (the wall-clock timestamps are omitted). -/
structure GraphMetadata where
  node_count : Nat
  edge_count : Nat
deriving DecidableEq, Repr

/-- `DimensionGraph` from `src/graph/dimension_graph.rs`.  The runtime caches
(`adjacency_cache`, `node_index`) are rebuilt from `nodes`/`edges` and not part
of the persisted state; the embedded operations follow the cache-absent code
paths, which read `nodes`/`edges` directly. -/
structure DimensionGraph where
  dimension : String
  version : String
  metadata : GraphMetadata
  nodes : List Node
  edges : List Edge
deriving DecidableEq, Repr

namespace DimensionGraph

/-- `DimensionGraph::new`. -/
def new (dimension : String) : DimensionGraph :=
  { dimension := dimension
    version := "1.0"
    metadata := ⟨0, 0⟩
    nodes := []
    edges := [] }

/-- `DimensionGraph::update_metadata` (sans the wall-clock field). -/
def update_metadata (g : DimensionGraph) : DimensionGraph :=
  { g with metadata := ⟨g.nodes.length, g.edges.length⟩ }

/-- `DimensionGraph::add_node`. -/
def add_node (g : DimensionGraph) (node : Node) : DimensionGraph :=
  update_metadata { g with nodes := g.nodes ++ [node] }

/-- `DimensionGraph::remove_node`: drop the first node with the id (if any) and
retain only edges not incident to the id. -/
def remove_node (g : DimensionGraph) (node_id : String) : DimensionGraph :=
  match position (fun n => n.id == node_id) g.nodes with
  | none => g
  | some index =>
    update_metadata
      { g with
        nodes := g.nodes.eraseIdx index
        edges := g.edges.filter (fun e => e.source != node_id && e.target != node_id) }

/-- `DimensionGraph::get_node` (index-free path: first node with the id). -/
def get_node (g : DimensionGraph) (node_id : String) : Option Node :=
  g.nodes.find? (fun n => n.id == node_id)

/-- `DimensionGraph::has_node`. -/
def has_node (g : DimensionGraph) (node_id : String) : Bool :=
  g.nodes.any (fun n => n.id == node_id)

/-- `DimensionGraph::add_edge` (note: no check that the endpoints exist). -/
def add_edge (g : DimensionGraph) (edge : Edge) : DimensionGraph :=
  update_metadata { g with edges := g.edges ++ [edge] }

/-- `DimensionGraph::add_edges`. -/
def add_edges (g : DimensionGraph) (edges : List Edge) : DimensionGraph :=
  edges.foldl add_edge g

/-- `DimensionGraph::remove_edge`: remove the first edge with the given
source/target pair, if any. -/
def remove_edge (g : DimensionGraph) (source target : String) : DimensionGraph :=
  match position (fun e => e.source == source && e.target == target) g.edges with
  | none => g
  | some index => update_metadata { g with edges := g.edges.eraseIdx index }

/-- `DimensionGraph::edges_from`. -/
def edges_from (g : DimensionGraph) (source : String) : List Edge :=
  g.edges.filter (fun e => e.source == source)

/-- `DimensionGraph::edges_to`. -/
def edges_to (g : DimensionGraph) (target : String) : List Edge :=
  g.edges.filter (fun e => e.target == target)

end DimensionGraph

/-- The node ids of a graph. -/
def graphIds (g : DimensionGraph) : List String := g.nodes.map Node.id

/-- The spec invariant "edges reference only existing node ids". -/
def EdgesWellFormed (g : DimensionGraph) : Prop :=
  ∀ e ∈ g.edges, e.source ∈ graphIds g ∧ e.target ∈ graphIds g

/-! ## Temporal dimension (`src/graph/dimensions/temporal.rs`) -/

/-- One iteration of the scan in
`DimensionGraph::find_temporal_neighbors_internal`: keep the closest
predecessor (strictly greater stored timestamp wins) and the closest successor
(strictly smaller stored timestamp wins); nodes at exactly `ts` are ignored. -/
def temporalScanStep (ts : Int)
    (acc : Option (String × Int) × Option (String × Int)) (node : Node) :
    Option (String × Int) × Option (String × Int) :=
  match node.features.timestamp with
  | none => acc
  | some node_ts =>
    if node_ts < ts then
      match acc.1 with
      | none => (some (node.id, node_ts), acc.2)
      | some (_, pu) => if pu < node_ts then (some (node.id, node_ts), acc.2) else acc
    else if ts < node_ts then
      match acc.2 with
      | none => (acc.1, some (node.id, node_ts))
      | some (_, su) => if node_ts < su then (acc.1, some (node.id, node_ts)) else acc
    else acc

/-- `DimensionGraph::find_temporal_neighbors_internal`. -/
def find_temporal_neighbors_internal (g : DimensionGraph) (ts : Int) :
    Option String × Option String :=
  let r := g.nodes.foldl (temporalScanStep ts) (none, none)
  (r.1.map Prod.fst, r.2.map Prod.fst)

/-- `DimensionGraph::insert_temporal_node`.  `cw d` models
`compute_temporal_weight(d, half_life)` applied to the absolute time
difference `d`, and `fmt d` models `format_time_diff(d)`; the Rust originals
use `exp`/float formatting and are kept abstract. -/
def insert_temporal_node (g : DimensionGraph) (node : Node)
    (cw : Int → ℚ) (fmt : Int → String) : Except String (Nat × DimensionGraph) :=
  match node.features.timestamp with
  | none => .error "MissingFeature(timestamp)"
  | some new_ts =>
    let pair := find_temporal_neighbors_internal g new_ts
    let pred_id := pair.1
    let succ_id := pair.2
    let g :=
      match pred_id, succ_id with
      | some p, some s => g.remove_edge p s
      | _, _ => g
    let node_id := node.id
    let g := g.add_node node
    let step1 : Nat × DimensionGraph :=
      match pred_id with
      | some pred =>
        match g.get_node pred with
        | some pred_node =>
          match pred_node.features.timestamp with
          | some pred_ts =>
            let diff := |new_ts - pred_ts|
            (1, g.add_edge (Edge.new pred node_id (cw diff) (fmt diff)))
          | none => (0, g)
        | none => (0, g)
      | none => (0, g)
    let edge_count := step1.1
    let g := step1.2
    let step2 : Nat × DimensionGraph :=
      match succ_id with
      | some succ =>
        match g.get_node succ with
        | some succ_node =>
          match succ_node.features.timestamp with
          | some succ_ts =>
            let diff := |succ_ts - new_ts|
            (edge_count + 1, g.add_edge (Edge.new node_id succ (cw diff) (fmt diff)))
          | none => (edge_count, g)
        | none => (edge_count, g)
      | none => (edge_count, g)
    .ok step2

/-! ## Graph queries (`src/graph/query.rs`, `src/graph/locator.rs`) -/

/-- `QueryDirection` from `src/graph/types.rs`. -/
inductive QueryDirection where
  | Forward
  | Backward
  | Both
deriving DecidableEq, Repr

/-- `SingleGraphQuery` from `src/graph/types.rs`. -/
structure SingleGraphQuery where
  anchors : List String
  limit : Nat
  min_weight : ℚ
  direction : QueryDirection
deriving DecidableEq, Repr

/-- `RelatedNode` from `src/graph/types.rs`. -/
structure RelatedNode where
  node_id : String
  weight : ℚ
  reason : String
  direction : QueryDirection
deriving DecidableEq, Repr

/-- `SingleGraphResult` from `src/graph/types.rs`. -/
structure SingleGraphResult where
  nodes : List RelatedNode
deriving DecidableEq, Repr

/-- `DimensionGraph::collect_forward`. -/
def collect_forward (g : DimensionGraph) (anchor : String) (min_weight : ℚ) :
    List RelatedNode :=
  ((g.edges_from anchor).filter (fun e => min_weight ≤ e.weight)).map
    (fun e => ⟨e.target, e.weight, e.reason, .Forward⟩)

/-- `DimensionGraph::collect_backward`. -/
def collect_backward (g : DimensionGraph) (anchor : String) (min_weight : ℚ) :
    List RelatedNode :=
  ((g.edges_to anchor).filter (fun e => min_weight ≤ e.weight)).map
    (fun e => ⟨e.source, e.weight, e.reason, .Backward⟩)

/-- The anchor loop of `DimensionGraph::query`. -/
def queryCollect (g : DimensionGraph) (request : SingleGraphQuery) : List RelatedNode :=
  request.anchors.foldl
    (fun acc anchor =>
      match request.direction with
      | .Forward => acc ++ collect_forward g anchor request.min_weight
      | .Backward => acc ++ collect_backward g anchor request.min_weight
      | .Both => acc ++ collect_forward g anchor request.min_weight
                     ++ collect_backward g anchor request.min_weight)
    []

/-- One step of the dedup loop of `DimensionGraph::query`: first occurrence
keeps its position, a strictly greater weight replaces in place. -/
def dedupStep (acc : List RelatedNode) (node : RelatedNode) : List RelatedNode :=
  match position (fun r => r.node_id == node.node_id) acc with
  | none => acc ++ [node]
  | some idx =>
    match acc[idx]? with
    | some cur => if cur.weight < node.weight then acc.set idx node else acc
    | none => acc

/-- The dedup loop of `DimensionGraph::query`. -/
def dedupByNodeId (results : List RelatedNode) : List RelatedNode :=
  results.foldl dedupStep []

/-- `DimensionGraph::query`: collect per anchor, dedup keeping the maximum
weight, drop anchors, sort by weight descending (stable) and truncate. -/
def DimensionGraph.query (g : DimensionGraph) (request : SingleGraphQuery) :
    SingleGraphResult :=
  let results := queryCollect g request
  let deduped := dedupByNodeId results
  let deduped := deduped.filter (fun n => !request.anchors.contains n.node_id)
  let sorted := List.insertionSort (fun a b => b.weight ≤ a.weight) deduped
  ⟨sorted.take request.limit⟩

/-- `MultiGraphQuery` from `src/graph/types.rs` (`dimension_weights` is a
`HashMap`, modelled as an association list in iteration order). -/
structure MultiGraphQuery where
  anchors : List String
  dimension_weights : List (String × ℚ)
  limit : Nat
  min_score : ℚ
deriving DecidableEq, Repr

/-- `ScoredNode` from `src/graph/types.rs` (`dimension_scores` modelled as an
association list in insertion order). -/
structure ScoredNode where
  node_id : String
  total_score : ℚ
  dimension_scores : List (String × ℚ)
  reasons : List String
deriving DecidableEq, Repr

/-- `DimensionContribution` from `src/graph/types.rs`. -/
structure DimensionContribution where
  node_id : String
  raw_weight : ℚ
  weighted_score : ℚ
  reason : String
deriving DecidableEq, Repr

/-- `MultiGraphResult` from `src/graph/types.rs`. -/
structure MultiGraphResult where
  nodes : List ScoredNode
  contributions : List (String × List DimensionContribution)
deriving DecidableEq, Repr

/-- `HashMap::insert` on an association list: replace if the key is present,
else append. -/
def assocInsert {α : Type} (m : List (String × α)) (k : String) (v : α) :
    List (String × α) :=
  if m.any (fun kv => kv.1 == k) then
    m.map (fun kv => if kv.1 == k then (k, v) else kv)
  else m ++ [(k, v)]

/-- The `all_scores.entry(..).or_insert(..)` accumulation in
`GraphLocator::query_multi`: sum `dim_weight · edge_weight` into
`total_score`, record the raw per-dimension weight and the reason. -/
def accumulateScore (dimension : String) (dim_weight : ℚ)
    (acc : List ScoredNode) (node : RelatedNode) : List ScoredNode :=
  let weighted_score := node.weight * dim_weight
  match position (fun s => s.node_id == node.node_id) acc with
  | none =>
    acc ++ [{ node_id := node.node_id
              total_score := 0 + weighted_score
              dimension_scores := assocInsert [] dimension node.weight
              reasons := [node.reason] }]
  | some idx =>
    match acc[idx]? with
    | some cur =>
      acc.set idx
        { cur with
          total_score := cur.total_score + weighted_score
          dimension_scores := assocInsert cur.dimension_scores dimension node.weight
          reasons := cur.reasons ++ [node.reason] }
    | none => acc

/-- The per-dimension loop of `GraphLocator::query_multi`.  `graphs` models the
locator's scope-resolved graph lookup (`none` models the skipped
`Err(NotFound)` branch). -/
def queryMultiLoop (graphs : String → Option DimensionGraph) (request : MultiGraphQuery) :
    List ScoredNode × List (String × List DimensionContribution) :=
  request.dimension_weights.foldl
    (fun acc dw =>
      let dimension := dw.1
      let dim_weight := dw.2
      if dim_weight ≤ 0 then acc
      else
        match graphs dimension with
        | none => acc
        | some graph =>
          let single_query : SingleGraphQuery :=
            { anchors := request.anchors
              limit := request.limit * 2
              min_weight := 0
              direction := .Both }
          let result := graph.query single_query
          let dim_contributions := result.nodes.map
            (fun node => DimensionContribution.mk node.node_id node.weight
              (node.weight * dim_weight) node.reason)
          let all_scores := result.nodes.foldl (accumulateScore dimension dim_weight) acc.1
          (all_scores, assocInsert acc.2 dimension dim_contributions))
    ([], [])

/-- `GraphLocator::query_multi`: run the per-dimension loop, sort by total
score descending, filter by `min_score`, truncate. -/
def query_multi (graphs : String → Option DimensionGraph) (request : MultiGraphQuery) :
    MultiGraphResult :=
  let pair := queryMultiLoop graphs request
  let nodes := List.insertionSort (fun a b => b.total_score ≤ a.total_score) pair.1
  let nodes := nodes.filter (fun n => request.min_score ≤ n.total_score)
  let nodes := nodes.take request.limit
  ⟨nodes, pair.2⟩

/-! ## Theorems -/

/-! ### C5 — `end_turn` -/

/-- `set_processor_state` leaves `messages` unchanged. -/
theorem set_processor_state_messages (p : ConversationPacket) (name : String) (state : Json) :
    (p.set_processor_state name state).messages = p.messages := by
  unfold ConversationPacket.set_processor_state
  split <;> rfl

/-- Packet with an empty `current_states` and a non-empty `history_states`,
refuting the unconditional-rotation reading of the `end_turn` claim. -/
def c5Packet : ConversationPacket :=
  { ConversationPacket.new "ast" "topic" "u" "a" with
    history_states := [[("TestProcessor", Json.prim (JsonPrim.num 1))]] }

/-- C5 counterexample: for a packet whose `current_states` is empty and whose
`history_states` is non-empty, `end_turn` does **not** rotate `current_states`
to the front of `history_states` — the front after `end_turn` is the old first
frame, not the (empty) current map, because the source pushes only a non-empty
`current_states`. -/
theorem end_turn_counterexample :
    ¬ ((ConversationPacket.end_turn c5Packet).history_states.head?
        = some c5Packet.current_states) := by
  simp [ConversationPacket.end_turn, c5Packet, ConversationPacket.new,
    pop_back_while_gt_two_eq_take]

/-- C5 (amended): `end_turn` pushes `current_states` to the front of
`history_states` only when it is non-empty, trims the history to at most two
frames (evicting from the back), empties `current_states`, clears `user_input`
and `last_processor`, and sets `ai_response` to `none`; `thinking_pool`,
`short_term_memory`, `conversation_turns` (and `messages`) are unchanged. -/
theorem end_turn_spec (p : ConversationPacket) :
    (p.end_turn).history_states
      = (if p.current_states.isEmpty then p.history_states
         else p.current_states :: p.history_states).take 2
    ∧ (p.end_turn).current_states = []
    ∧ (p.end_turn).user_input = ""
    ∧ (p.end_turn).ai_response = none
    ∧ (p.end_turn).last_processor = none
    ∧ (p.end_turn).history_states.length ≤ 2
    ∧ (p.end_turn).thinking_pool = p.thinking_pool
    ∧ (p.end_turn).short_term_memory = p.short_term_memory
    ∧ (p.end_turn).conversation_turns = p.conversation_turns
    ∧ (p.end_turn).messages = p.messages := by
  refine ⟨?_, rfl, rfl, rfl, rfl, ?_, rfl, rfl, rfl, rfl⟩
  · simp only [ConversationPacket.end_turn, pop_back_while_gt_two_eq_take]
  · simp only [ConversationPacket.end_turn, pop_back_while_gt_two_eq_take]
    simp only [List.length_take]
    omega

/-! ### C6 — ContextCleaner -/

/-- Packet holding an assistant-role message that begins with the short-term
memory marker. -/
def c6Packet : ConversationPacket :=
  { ConversationPacket.new "ast" "topic" "u" "a" with
    messages := [ChatMessage.assistant "【系统消息-短期记忆】现在为你注入X"] }

/-- C6 counterexample: after `ContextCleaner::process`, a message starting with
the normative marker can survive — the removal predicate only matches
user-role messages, so an assistant-role message with the marker prefix is
kept. -/
theorem context_cleaner_counterexample :
    ∃ m ∈ (ContextCleaner.process c6Packet).messages,
      strStartsWith m.content "【系统消息-短期记忆】现在为你注入" = true := by
  decide

/-- C6 (amended): after ContextCleaner no **user-role** message starts with
either marker prefix; the resulting message list is exactly the original list
filtered by the removal predicate (a user-role message whose content begins
with one of the two prefixes), so only matching messages are removed and all
other messages keep their original relative order. -/
theorem context_cleaner_spec (p : ConversationPacket) :
    ((ContextCleaner.process p).messages
      = p.messages.filter (fun m => !ContextCleaner.should_remove m))
    ∧ (∀ m ∈ (ContextCleaner.process p).messages, m.role = "user" →
        strStartsWith m.content "【系统消息-短期记忆】现在为你注入" = false
        ∧ strStartsWith m.content "【系统消息-短期记忆】根据" = false)
    ∧ (ContextCleaner.process p).messages.Sublist p.messages
    ∧ (∀ m ∈ p.messages, ContextCleaner.should_remove m = false →
        m ∈ (ContextCleaner.process p).messages) := by
  have hmsgs : (ContextCleaner.process p).messages
      = p.messages.filter (fun m => !ContextCleaner.should_remove m) := by
    simp [ContextCleaner.process, set_processor_state_messages]
  refine ⟨hmsgs, ?_, ?_, ?_⟩
  · intro m hm hrole
    rw [hmsgs] at hm
    have h := (List.mem_filter.mp hm).2
    simp only [ContextCleaner.should_remove,
      ContextCleaner.should_remove_short_term_memory_injection,
      ContextCleaner.should_remove_short_term_memory_expansion, hrole,
      Bool.not_eq_true', Bool.or_eq_false_iff, Bool.and_eq_false_iff] at h
    obtain ⟨h1, h2⟩ := h
    constructor
    · rcases h1 with h1 | h1
      · simp at h1
      · exact h1
    · rcases h2 with h2 | h2
      · simp at h2
      · exact h2
  · rw [hmsgs]
    exact List.filter_sublist _
  · intro m hm h0
    rw [hmsgs]
    exact List.mem_filter.mpr ⟨hm, by simp [h0]⟩

/-- Packet with one plain user message, used to witness the amended
ContextCleaner theorem. -/
def c6WitnessPacket : ConversationPacket :=
  { ConversationPacket.new "ast" "topic" "u" "a" with
    messages := [ChatMessage.user "hello"] }

/-- Witness for the amended ContextCleaner theorem at a concrete packet. -/
theorem context_cleaner_spec_witness :
    (ChatMessage.user "hello") ∈ (ContextCleaner.process c6WitnessPacket).messages
    ∧ (ContextCleaner.process c6WitnessPacket).messages.Sublist c6WitnessPacket.messages :=
  ⟨(context_cleaner_spec c6WitnessPacket).2.2.2 _ (by decide) (by decide),
   (context_cleaner_spec c6WitnessPacket).2.2.1⟩

/-! ### C9 — pipeline dispatcher -/

/-- The dispatcher loop is the fold of the per-entry spec step. -/
theorem dispatchLoop_eq_foldl (registry : String → Option Processor) (mem : Bool)
    (entries : List ProcessorEntry) (packet : ConversationPacket) :
    dispatchLoop registry mem entries packet
      = entries.foldl (dispatchStepSpec registry mem) packet := by
  induction entries generalizing packet with
  | nil => rfl
  | cons e rest ih =>
    cases hreg : registry e.name with
    | none => simp [dispatchLoop, dispatchStepSpec, hreg, ih]
    | some proc =>
      by_cases hmem : (proc.requires_memory && !mem) = true
      · simp [dispatchLoop, dispatchStepSpec, hreg, hmem, ih]
      · cases hproc : proc.process packet with
        | mk err p' =>
          cases err <;>
            simp [dispatchLoop, dispatchStepSpec, hreg, hmem, hproc, ih]

/-- C9: `dispatch` returns success for every registry, phase, packet,
configuration and memory flag, and its result is the in-order fold of the
spec's per-entry step — an entry whose name is not registered is skipped, a
memory-requiring processor is skipped when the topic is not memory-enabled, a
failing processor leaves its partial mutations and the remaining entries still
run, and each successful processor stamps `last_processor` with its name. -/
theorem dispatch_isolates_failures (registry : String → Option Processor)
    (timing : PipelineTiming) (packet : ConversationPacket)
    (pipeline_config : PipelineConfig) (memory_enabled : Bool) :
    dispatch registry timing packet pipeline_config memory_enabled
      = Except.ok ((selectEntries timing pipeline_config).foldl
          (dispatchStepSpec registry memory_enabled) packet) := by
  unfold dispatch
  by_cases h : (selectEntries timing pipeline_config).isEmpty
  · have hnil : selectEntries timing pipeline_config = [] := by
      simpa using h
    simp [h, hnil]
  · simp [h, dispatchLoop_eq_foldl]

/-! ### C10 — `cosine_similarity` totality -/

/-- The square root of the rational zero is zero. -/
theorem rat_sqrt_zero : Rat.sqrt 0 = 0 := by
  have h := Rat.sqrt_eq (0 : ℚ)
  simp only [mul_zero, abs_zero] at h
  exact h

/-- The sum of squares of an all-zero vector is zero. -/
theorem sumsq_eq_zero_of_all_zero (l : List ℚ) (h : ∀ x ∈ l, x = 0) :
    (l.map (fun x => x * x)).sum = 0 := by
  induction l with
  | nil => simp
  | cons a t ih =>
    simp only [List.map_cons, List.sum_cons]
    rw [h a (by simp), ih (fun x hx => h x (by simp [hx]))]
    ring

/-- C10: `cosine_similarity` is total and never divides by zero — it returns 0
whenever the vectors have different lengths, the first vector is empty (which,
with equal lengths, also covers an empty second vector), or either vector is
all-zero (zero norm); and in every other case the division it performs has a
non-zero denominator, so every search score is a defined rational. -/
theorem cosine_similarity_total (a b : List ℚ) :
    (a.length ≠ b.length → cosine_similarity a b = 0)
    ∧ (a = [] → cosine_similarity a b = 0)
    ∧ ((∀ x ∈ a, x = 0) → cosine_similarity a b = 0)
    ∧ ((∀ x ∈ b, x = 0) → cosine_similarity a b = 0)
    ∧ (cosine_similarity a b = 0
        ∨ (Rat.sqrt ((a.map (fun x => x * x)).sum) ≠ 0
           ∧ Rat.sqrt ((b.map (fun x => x * x)).sum) ≠ 0
           ∧ Rat.sqrt ((a.map (fun x => x * x)).sum)
               * Rat.sqrt ((b.map (fun x => x * x)).sum) ≠ 0
           ∧ cosine_similarity a b
               = (List.zipWith (· * ·) a b).sum
                   / (Rat.sqrt ((a.map (fun x => x * x)).sum)
                      * Rat.sqrt ((b.map (fun x => x * x)).sum)))) := by
  by_cases h1 : a.length ≠ b.length ∨ a = []
  · have hc : cosine_similarity a b = 0 := by
      unfold cosine_similarity
      rw [if_pos h1]
    exact ⟨fun _ => hc, fun _ => hc, fun _ => hc, fun _ => hc, Or.inl hc⟩
  · have hguard1 : ¬(a.length ≠ b.length ∨ a = []) := h1
    refine ⟨fun h => absurd (Or.inl h) hguard1, fun h => absurd (Or.inr h) hguard1,
      ?_, ?_, ?_⟩
    · intro hz
      have hsa : (a.map (fun x => x * x)).sum = 0 := sumsq_eq_zero_of_all_zero a hz
      unfold cosine_similarity
      rw [if_neg hguard1, if_pos (Or.inl (by rw [hsa]; exact rat_sqrt_zero))]
    · intro hz
      have hsb : (b.map (fun x => x * x)).sum = 0 := sumsq_eq_zero_of_all_zero b hz
      unfold cosine_similarity
      rw [if_neg hguard1, if_pos (Or.inr (by rw [hsb]; exact rat_sqrt_zero))]
    · by_cases h2 : Rat.sqrt ((a.map (fun x => x * x)).sum) = 0
          ∨ Rat.sqrt ((b.map (fun x => x * x)).sum) = 0
      · refine Or.inl ?_
        unfold cosine_similarity
        rw [if_neg hguard1, if_pos h2]
      · push_neg at h2
        refine Or.inr ⟨h2.1, h2.2, mul_ne_zero h2.1 h2.2, ?_⟩
        unfold cosine_similarity
        rw [if_neg hguard1, if_neg (by push_neg; exact h2)]

/-- Witness for C10 at concrete mismatched vectors. -/
theorem cosine_similarity_total_witness :
    ([(1 : ℚ)].length ≠ [(0 : ℚ), 0].length)
    ∧ cosine_similarity [(1 : ℚ)] [(0 : ℚ), 0] = 0 :=
  ⟨by decide, (cosine_similarity_total [(1 : ℚ)] [(0 : ℚ), 0]).1 (by decide)⟩

/-! ### C3 — short-term vectorizer -/

/-- C3: `vectorize_memory` consults the embedding client only on the memory's
**summary** — two embedders that agree on the summary produce identical
records even if they disagree on the content — and the produced record stores
that single summary embedding in its only embedding field.  (The claim's dual
summary/content embedding is what `assistant_api.rs` and the spec expect, but
it is not what this processor produces.) -/
theorem vectorize_memory_embeds_only_summary (embed embed2 : String → List ℚ)
    (memory : ShortTermMemory) (h : embed memory.summary = embed2 memory.summary) :
    vectorize_memory embed memory = vectorize_memory embed2 memory
    ∧ (vectorize_memory embed memory).embedding = embed memory.summary := by
  unfold vectorize_memory
  rw [h]
  exact ⟨rfl, rfl⟩

/-- The C3 failing input: a short-term memory with distinct summary and
content. -/
def c3Memory : ShortTermMemory :=
  ⟨"m1", "the summary", "the content", "fact", false, 1, 1, .CurrentConversation, 0⟩

/-- An embedder that distinguishes the content ... -/
def c3EmbedA : String → List ℚ := fun text => if text == "the content" then [2] else [1]

/-- ... and one that does not. -/
def c3EmbedB : String → List ℚ := fun _ => [1]

/-- Witness for C3 at the failing input: the two embedders agree on the
summary (though not on the content), so the vectorizer cannot tell them apart. -/
theorem vectorize_memory_embeds_only_summary_witness :
    c3EmbedA c3Memory.summary = c3EmbedB c3Memory.summary
    ∧ vectorize_memory c3EmbedA c3Memory = vectorize_memory c3EmbedB c3Memory :=
  ⟨by simp [c3EmbedA, c3EmbedB, c3Memory],
   (vectorize_memory_embeds_only_summary c3EmbedA c3EmbedB c3Memory
     (by simp [c3EmbedA, c3EmbedB, c3Memory])).1⟩

/-! ### C2 — thinking-tag filtering of a split stream -/

/-- The provider chunks of the C2 scenario, splitting `<think>` across the
chunk boundary. -/
def c2Chunks : List String := ["A<thi", "nk>hidden</think>B"]

/-- A fresh packet for the C2 scenario. -/
def c2Packet : ConversationPacket := ConversationPacket.new "ast" "topic" "u" "a"

/-- C2: streaming the chunks `"A<thi"`, `"nk>hidden</think>B"` through the
chunk-aware filter forwards exactly the text with the thinking span
suppressed (`"AB"` in total), and the packet's `ai_response` after stream end
(`strip_thinking_tags` over the accumulated forwarded text, then
`append_assistant_message`) is `"AB"`; the non-stream filter
`strip_thinking_tags` maps the same unsplit text to `"AB"` as well. -/
theorem streaming_think_filter_example :
    String.join (thinkFilterChunks ThinkFilterState.initial c2Chunks).2 = "AB"
    ∧ (c2Packet.append_assistant_message (strip_thinking_tags
        (String.join (thinkFilterChunks ThinkFilterState.initial c2Chunks).2))).ai_response
      = some "AB"
    ∧ strip_thinking_tags "A<think>hidden</think>B" = "AB" := by
  decide

/-! ### C7 — edge endpoints and `remove_node` -/

/-- Graph obtained by `add_edge` on an empty graph: the edge's endpoints name
no existing node. -/
def c7Graph : DimensionGraph :=
  (DimensionGraph.new "temporal").add_edge (Edge.new "a" "b" 1 "r")

/-- C7 counterexample: `add_edge` does not validate endpoints, so it does not
preserve the invariant that every edge references existing node ids — the
empty graph satisfies the invariant, and a single `add_edge` breaks it. -/
theorem add_edge_counterexample :
    EdgesWellFormed (DimensionGraph.new "temporal") ∧ ¬ EdgesWellFormed c7Graph := by
  constructor
  · intro e he
    simp [DimensionGraph.new] at he
  · intro h
    have hmem : Edge.new "a" "b" 1 "r" ∈ c7Graph.edges := by
      simp [c7Graph, DimensionGraph.add_edge, DimensionGraph.update_metadata,
        DimensionGraph.new]
    have := (h _ hmem).1
    simp [c7Graph, graphIds, DimensionGraph.add_edge, DimensionGraph.update_metadata,
      DimensionGraph.new, Edge.new] at this

/-- A node id different from an erased index's id survives the erasure. -/
theorem mem_map_id_eraseIdx (l : List Node) (i : Nat) (x : String)
    (hx : x ∈ l.map Node.id) (hi : i < l.length) (hne : (l.get ⟨i, hi⟩).id ≠ x) :
    x ∈ (l.eraseIdx i).map Node.id := by
  induction l generalizing i with
  | nil => simp at hx
  | cons a t ih =>
    cases i with
    | zero =>
      simp only [List.eraseIdx]
      simp only [List.map_cons, List.mem_cons] at hx
      rcases hx with hxa | hx
      · exact absurd hxa.symm (by simpa using hne)
      · exact hx
    | succ j =>
      simp only [List.eraseIdx, List.map_cons, List.mem_cons] at hx ⊢
      rcases hx with hxa | hx
      · exact Or.inl hxa
      · exact Or.inr (ih j hx (Nat.lt_of_succ_lt_succ hi) hne)

/-- C7 (amended): `remove_node n` removes every incident edge — when `n` names
an existing node (or more generally whenever the graph's edges reference only
existing node ids), no remaining edge has `n` as source or target — and
`remove_node` preserves the invariant that every edge's endpoints are existing
node ids.  (`add_edge`/`add_edges` append without validating endpoints, so the
invariant is **not** preserved by them; see the counterexample.) -/
theorem remove_node_spec (g : DimensionGraph) (n : String) :
    (n ∈ graphIds g → ∀ e ∈ (g.remove_node n).edges, e.source ≠ n ∧ e.target ≠ n)
    ∧ (EdgesWellFormed g → ∀ e ∈ (g.remove_node n).edges, e.source ≠ n ∧ e.target ≠ n)
    ∧ (EdgesWellFormed g → EdgesWellFormed (g.remove_node n)) := by
  cases hpos : position (fun nd => nd.id == n) g.nodes with
  | none =>
    have hall := (position_eq_none_iff _ _).mp hpos
    have hnot : n ∉ graphIds g := by
      intro hn
      obtain ⟨nd, hnd, hid⟩ := List.mem_map.mp hn
      have := hall nd hnd
      simp [hid] at this
    have hg : g.remove_node n = g := by
      unfold DimensionGraph.remove_node
      rw [hpos]
    refine ⟨fun hn => absurd hn hnot, ?_, ?_⟩
    · intro hwf e he
      rw [hg] at he
      have := hwf e he
      exact ⟨fun hsrc => hnot (hsrc ▸ this.1), fun htgt => hnot (htgt ▸ this.2)⟩
    · intro hwf
      rw [hg]
      exact hwf
  | some i =>
    obtain ⟨hi, hpi⟩ := position_eq_some _ _ _ hpos
    have hid : (g.nodes.get ⟨i, hi⟩).id = n := by simpa using hpi
    have hg : (g.remove_node n).edges
        = g.edges.filter (fun e => e.source != n && e.target != n) := by
      unfold DimensionGraph.remove_node
      rw [hpos]
      rfl
    have hgn : (g.remove_node n).nodes = g.nodes.eraseIdx i := by
      unfold DimensionGraph.remove_node
      rw [hpos]
      rfl
    have hedge : ∀ e ∈ (g.remove_node n).edges, e.source ≠ n ∧ e.target ≠ n := by
      intro e he
      rw [hg] at he
      have := (List.mem_filter.mp he).2
      simp only [Bool.and_eq_true, bne_iff_ne, ne_eq] at this
      exact this
    refine ⟨fun _ => hedge, fun _ => hedge, ?_⟩
    intro hwf e he
    have hmem : e ∈ g.edges := List.mem_filter.mp (hg ▸ he) |>.1
    have hends := hwf e hmem
    have hne := hedge e he
    have hne_src : (g.nodes.get ⟨i, hi⟩).id ≠ e.source := by
      rw [hid]
      intro hcontra
      exact hne.1 hcontra.symm
    have hne_tgt : (g.nodes.get ⟨i, hi⟩).id ≠ e.target := by
      rw [hid]
      intro hcontra
      exact hne.2 hcontra.symm
    constructor
    · have h1 : e.source ∈ (g.nodes.eraseIdx i).map Node.id :=
        mem_map_id_eraseIdx g.nodes i e.source hends.1 hi hne_src
      show e.source ∈ graphIds (g.remove_node n)
      unfold graphIds
      rw [hgn]
      exact h1
    · have h1 : e.target ∈ (g.nodes.eraseIdx i).map Node.id :=
        mem_map_id_eraseIdx g.nodes i e.target hends.2 hi hne_tgt
      show e.target ∈ graphIds (g.remove_node n)
      unfold graphIds
      rw [hgn]
      exact h1

/-- A two-node, one-edge graph for the `remove_node` witness. -/
def c7WitnessGraph : DimensionGraph :=
  { dimension := "temporal"
    version := "1.0"
    metadata := ⟨2, 1⟩
    nodes := [⟨"a", ⟨none⟩⟩, ⟨"b", ⟨none⟩⟩]
    edges := [Edge.new "a" "b" 1 "r"] }

/-- Witness for the amended C7 theorem at a concrete graph. -/
theorem remove_node_spec_witness :
    "a" ∈ graphIds c7WitnessGraph
    ∧ (∀ e ∈ (c7WitnessGraph.remove_node "a").edges, e.source ≠ "a" ∧ e.target ≠ "a") :=
  ⟨by decide, (remove_node_spec c7WitnessGraph "a").1 (by decide)⟩

/-! ### C4 — short-term vector file search -/

/-- C4: for every file, query, `top_k` and embedding client, the search (i)
scores each returned record as `0.4·cos(q, summary_embedding) + 0.6·cos(q,
content_embedding)` of a record of the file, where `q` is the query embedded
with the file's declared model, with the score differing from that weighted
sum by less than 1e-6 (in the rational model it is exact); (ii) returns the
records in descending score order; (iii) returns at most `top_k` of them;
(iv) depends on the embedding client only through the file's declared model
applied to the query; and (v) returns exactly the **top-k**: the result is the
`top_k`-prefix of the stable descending sort of all the file's scored records,
so its length is `min top_k |vectors|` and no omitted record outscores a
returned one. -/
theorem search_conversation_memory_spec (embed : String → String → List ℚ)
    (file : ApiShortTermVectorFile) (query : String) (top_k : Nat) :
    (∀ r ∈ search_conversation_memory embed file query top_k,
        r.memory ∈ file.vectors
        ∧ r.score = 0.4 * cosine_similarity (embed file.metadata.embedding_model query)
              r.memory.summary_embedding
            + 0.6 * cosine_similarity (embed file.metadata.embedding_model query)
              r.memory.content_embedding
        ∧ |r.score - (0.4 * cosine_similarity (embed file.metadata.embedding_model query)
              r.memory.summary_embedding
            + 0.6 * cosine_similarity (embed file.metadata.embedding_model query)
              r.memory.content_embedding)| < 1 / 1000000)
    ∧ (search_conversation_memory embed file query top_k).Pairwise
        (fun a b => b.score ≤ a.score)
    ∧ (search_conversation_memory embed file query top_k).length ≤ top_k
    ∧ (∀ embed2 : String → String → List ℚ,
        embed2 file.metadata.embedding_model query
          = embed file.metadata.embedding_model query →
        search_conversation_memory embed2 file query top_k
          = search_conversation_memory embed file query top_k)
    ∧ search_conversation_memory embed file query top_k
        = (List.insertionSort (fun a b => b.score ≤ a.score)
            (file.vectors.map (fun mem => SearchResult.mk mem
              (0.4 * cosine_similarity (embed file.metadata.embedding_model query)
                  mem.summary_embedding
               + 0.6 * cosine_similarity (embed file.metadata.embedding_model query)
                  mem.content_embedding)))).take top_k
    ∧ (search_conversation_memory embed file query top_k).length
        = min top_k file.vectors.length := by
  haveI htot : IsTotal SearchResult (fun a b => b.score ≤ a.score) :=
    ⟨fun a b => le_total b.score a.score⟩
  haveI htrans : IsTrans SearchResult (fun a b => b.score ≤ a.score) :=
    ⟨fun _ _ _ hab hbc => le_trans hbc hab⟩
  have hopen : search_conversation_memory embed file query top_k
      = (List.insertionSort (fun a b => b.score ≤ a.score)
          (file.vectors.map (fun mem => SearchResult.mk mem
            (0.4 * cosine_similarity (embed file.metadata.embedding_model query)
                mem.summary_embedding
             + 0.6 * cosine_similarity (embed file.metadata.embedding_model query)
                mem.content_embedding)))).take top_k := by
    by_cases hv : file.vectors = []
    · simp [search_conversation_memory, hv]
    · simp [search_conversation_memory, hv]
  refine ⟨?_, ?_, ?_, ?_, hopen, ?_⟩
  · intro r hr
    rw [hopen] at hr
    have hr2 := (List.take_sublist _ _).subset hr
    have hr3 := (List.perm_insertionSort
      (fun a b : SearchResult => b.score ≤ a.score) _).subset hr2
    obtain ⟨mem0, hmem0, rfl⟩ := List.mem_map.mp hr3
    refine ⟨hmem0, rfl, ?_⟩
    simp only [sub_self, abs_zero]
    norm_num
  · rw [hopen]
    exact List.Pairwise.sublist (List.take_sublist _ _)
      (List.sorted_insertionSort (fun a b : SearchResult => b.score ≤ a.score) _)
  · rw [hopen]
    simp only [List.length_take]
    omega
  · intro embed2 h
    simp only [search_conversation_memory, h]
  · rw [hopen]
    simp [List.length_take, List.length_insertionSort, List.length_map]

/-- A one-record file for the search witness. -/
def c4File : ApiShortTermVectorFile :=
  ⟨[⟨"m1", "s", "c", "fact", "CurrentConversation", "0", false, 1, [1], [1]⟩],
   ⟨"embed-model", 1, "t"⟩⟩

/-- A constant embedding client. -/
def c4Embed : String → String → List ℚ := fun _ _ => [1]

/-- An embedding client that agrees with `c4Embed` only on the file's declared
model. -/
def c4Embed2 : String → String → List ℚ :=
  fun model _ => if model == "embed-model" then [1] else [7]

/-- Witness for the search theorem at a concrete file and query. -/
theorem search_conversation_memory_spec_witness :
    (search_conversation_memory c4Embed c4File "q" 3).length ≤ 3
    ∧ search_conversation_memory c4Embed2 c4File "q" 3
      = search_conversation_memory c4Embed c4File "q" 3
    ∧ (search_conversation_memory c4Embed c4File "q" 3).length
      = min 3 c4File.vectors.length :=
  ⟨(search_conversation_memory_spec c4Embed c4File "q" 3).2.2.1,
   (search_conversation_memory_spec c4Embed c4File "q" 3).2.2.2.1 c4Embed2
     (by simp [c4Embed, c4Embed2, c4File]),
   (search_conversation_memory_spec c4Embed c4File "q" 3).2.2.2.2.2⟩

/-! ### C8 — multi-graph query vs single-graph query -/

/-- Setting an index to the value already there is a no-op. -/
theorem set_get?_self {α : Type} : ∀ (l : List α) (n : Nat) (a : α),
    l.get? n = some a → l.set n a = l
  | [], n, a, h => by simp at h
  | x :: t, 0, a, h => by
    simp only [List.get?] at h
    cases h
    rfl
  | x :: t, n + 1, a, h => by
    simp only [List.set]
    rw [set_get?_self t n a (by simpa using h)]

/-- Every collected forward candidate passed the weight threshold. -/
theorem collect_forward_weight (g : DimensionGraph) (anchor : String) (mw : ℚ) :
    ∀ r ∈ collect_forward g anchor mw, mw ≤ r.weight := by
  intro r hr
  obtain ⟨e, he, rfl⟩ := List.mem_map.mp hr
  exact of_decide_eq_true (List.mem_filter.mp he).2

/-- Every collected backward candidate passed the weight threshold. -/
theorem collect_backward_weight (g : DimensionGraph) (anchor : String) (mw : ℚ) :
    ∀ r ∈ collect_backward g anchor mw, mw ≤ r.weight := by
  intro r hr
  obtain ⟨e, he, rfl⟩ := List.mem_map.mp hr
  exact of_decide_eq_true (List.mem_filter.mp he).2

/-- Every candidate produced by the anchor loop passed the weight threshold. -/
theorem queryCollect_weight (g : DimensionGraph) (request : SingleGraphQuery) :
    ∀ r ∈ queryCollect g request, request.min_weight ≤ r.weight := by
  unfold queryCollect
  suffices h : ∀ (anchors : List String) (acc : List RelatedNode),
      (∀ r ∈ acc, request.min_weight ≤ r.weight) →
      ∀ r ∈ anchors.foldl
        (fun acc anchor =>
          match request.direction with
          | .Forward => acc ++ collect_forward g anchor request.min_weight
          | .Backward => acc ++ collect_backward g anchor request.min_weight
          | .Both => acc ++ collect_forward g anchor request.min_weight
                         ++ collect_backward g anchor request.min_weight) acc,
        request.min_weight ≤ r.weight by
    exact h request.anchors [] (by simp)
  intro anchors
  induction anchors with
  | nil => intro acc hacc r hr; exact hacc r hr
  | cons a t ih =>
    intro acc hacc r hr
    refine ih _ ?_ r hr
    intro x hx
    cases hdir : request.direction <;> rw [hdir] at hx <;>
      simp only [List.mem_append] at hx
    · rcases hx with hx | hx
      · exact hacc x hx
      · exact collect_forward_weight g a _ x hx
    · rcases hx with hx | hx
      · exact hacc x hx
      · exact collect_backward_weight g a _ x hx
    · rcases hx with (hx | hx) | hx
      · exact hacc x hx
      · exact collect_forward_weight g a _ x hx
      · exact collect_backward_weight g a _ x hx

/-- Every element after one dedup step comes from the accumulator or is the
new node. -/
theorem mem_dedupStep (acc : List RelatedNode) (n : RelatedNode) :
    ∀ y ∈ dedupStep acc n, y ∈ acc ∨ y = n := by
  intro y hy
  unfold dedupStep at hy
  split at hy
  · rcases List.mem_append.mp hy with hy | hy
    · exact Or.inl hy
    · exact Or.inr (by simpa using hy)
  · split at hy
    · split at hy
      · rcases List.mem_or_eq_of_mem_set hy with hy | hy
        · exact Or.inl hy
        · exact Or.inr hy
      · exact Or.inl hy
    · exact Or.inl hy

/-- Every element of the deduplicated list comes from the accumulator or the
input. -/
theorem mem_dedup_subset : ∀ (l : List RelatedNode) (acc : List RelatedNode),
    ∀ x ∈ l.foldl dedupStep acc, x ∈ acc ∨ x ∈ l := by
  intro l
  induction l with
  | nil => intro acc x hx; exact Or.inl hx
  | cons n t ih =>
    intro acc x hx
    simp only [List.foldl_cons] at hx
    rcases ih (dedupStep acc n) x hx with hy | hy
    · rcases mem_dedupStep acc n x hy with h | h
      · exact Or.inl h
      · exact Or.inr (by simp [h])
    · exact Or.inr (by simp [hy])

/-- The deduplication loop keeps the node ids duplicate-free. -/
theorem dedup_ids_nodup : ∀ (l : List RelatedNode) (acc : List RelatedNode),
    (acc.map RelatedNode.node_id).Nodup →
    ((l.foldl dedupStep acc).map RelatedNode.node_id).Nodup := by
  intro l
  induction l with
  | nil => intro acc h; exact h
  | cons n t ih =>
    intro acc h
    simp only [List.foldl_cons]
    refine ih _ ?_
    unfold dedupStep
    split
    · rename_i hpos
      have hall := (position_eq_none_iff _ _).mp hpos
      have hnotin : n.node_id ∉ acc.map RelatedNode.node_id := by
        intro hc
        obtain ⟨r, hr, hid⟩ := List.mem_map.mp hc
        have := hall r hr
        simp [hid] at this
      simp only [List.map_append, List.map_cons, List.map_nil]
      exact List.Nodup.append h (by simp) (by
        intro x hx hy
        simp only [List.mem_singleton] at hy
        exact hnotin (hy ▸ hx))
    · rename_i idx hpos
      split
      · rename_i cur hget
        split
        · rename_i hlt
          have hid : cur.node_id = n.node_id := by
            obtain ⟨hi, hpi⟩ := position_eq_some _ _ _ hpos
            have hcur : acc.get ⟨idx, hi⟩ = cur := by
              have hgg := List.getElem?_eq_getElem hi
              rw [hget] at hgg
              rw [List.get_eq_getElem]
              exact (Option.some.injEq _ _ ▸ hgg).symm
            rw [← hcur]
            simpa using hpi
          have hmap : (acc.set idx n).map RelatedNode.node_id
              = acc.map RelatedNode.node_id := by
            rw [List.map_set]
            apply set_get?_self
            rw [List.get?_eq_getElem?]
            rw [List.getElem?_map, hget]
            simp [hid]
          rw [hmap]
          exact h
        · exact h
      · exact h

/-- Accumulating scores of nodes with pairwise-distinct ids, all fresh w.r.t.
the accumulator, appends one `ScoredNode` per input node in order. -/
theorem accumulate_fresh (dim : String) (w : ℚ) :
    ∀ (l : List RelatedNode) (acc : List ScoredNode),
      (∀ n ∈ l, ∀ s ∈ acc, s.node_id ≠ n.node_id) →
      (l.map RelatedNode.node_id).Nodup →
      l.foldl (accumulateScore dim w) acc
        = acc ++ l.map (fun n => ScoredNode.mk n.node_id (0 + n.weight * w)
            (assocInsert [] dim n.weight) [n.reason]) := by
  intro l
  induction l with
  | nil => intro acc _ _; simp
  | cons n t ih =>
    intro acc hfresh hnodup
    simp only [List.foldl_cons]
    have hpos : position (fun s => s.node_id == n.node_id) acc = none := by
      rw [position_eq_none_iff]
      intro s hs
      have := hfresh n (by simp) s hs
      simp [this]
    have hstep : accumulateScore dim w acc n
        = acc ++ [ScoredNode.mk n.node_id (0 + n.weight * w)
            (assocInsert [] dim n.weight) [n.reason]] := by
      unfold accumulateScore
      rw [hpos]
    rw [hstep]
    have hnot_t : n.node_id ∉ t.map RelatedNode.node_id := by
      have := hnodup
      simp only [List.map_cons, List.nodup_cons] at this
      exact this.1
    rw [ih _ ?_ ?_]
    · simp
    · intro m hm s hs
      rcases List.mem_append.mp hs with hs | hs
      · exact hfresh m (by simp [hm]) s hs
      · simp only [List.mem_singleton] at hs
        subst hs
        intro hc
        apply hnot_t
        have hc' : n.node_id = m.node_id := hc
        rw [hc']
        exact List.mem_map_of_mem RelatedNode.node_id hm
    · have := hnodup
      simp only [List.map_cons, List.nodup_cons] at this
      exact this.2

/-- Every returned node of the single-graph query is a collected candidate. -/
theorem query_nodes_subset_collect (g : DimensionGraph) (request : SingleGraphQuery) :
    ∀ n ∈ (g.query request).nodes, n ∈ queryCollect g request := by
  intro n hn
  unfold DimensionGraph.query at hn
  have h1 := (List.take_sublist _ _).subset hn
  have h2 := (List.perm_insertionSort
    (fun a b : RelatedNode => b.weight ≤ a.weight) _).subset h1
  have h3 := (List.filter_sublist _).subset h2
  rcases mem_dedup_subset _ [] n h3 with h | h
  · simp at h
  · exact h

/-- The single-graph query returns pairwise-distinct node ids. -/
theorem query_nodes_id_nodup (g : DimensionGraph) (request : SingleGraphQuery) :
    (((g.query request).nodes).map RelatedNode.node_id).Nodup := by
  unfold DimensionGraph.query
  have h0 : ((dedupByNodeId (queryCollect g request)).map RelatedNode.node_id).Nodup :=
    dedup_ids_nodup _ [] (by simp)
  have h1 : (((dedupByNodeId (queryCollect g request)).filter
      (fun n => !request.anchors.contains n.node_id)).map RelatedNode.node_id).Nodup :=
    List.Nodup.sublist ((List.filter_sublist _).map RelatedNode.node_id) h0
  have h2 : ((List.insertionSort (fun a b : RelatedNode => b.weight ≤ a.weight)
      ((dedupByNodeId (queryCollect g request)).filter
        (fun n => !request.anchors.contains n.node_id))).map RelatedNode.node_id).Nodup := by
    refine (List.Perm.nodup_iff ?_).mpr h1
    exact (List.perm_insertionSort _ _).map RelatedNode.node_id
  exact List.Nodup.sublist ((List.take_sublist _ _).map RelatedNode.node_id) h2

/-- C8 (amended): a multi-graph query whose `dimension_weights` holds exactly
one dimension with weight `w > 0` and whose `min_score` is 0 returns the same
node ids in the same relative order as the single-graph query over that
dimension's graph with the same anchors and limit, `min_weight` 0 and
direction Both, and each node's `total_score` is `w` times the weight the
single-graph query reports.  (With a non-zero shared threshold the two
diverge: the multi query compares `w · weight` against `min_score` after
collecting with `min_weight = 0`, while the single query compares raw edge
weights against `min_weight`; see the counterexample.) -/
theorem query_multi_single_dimension (graphs : String → Option DimensionGraph)
    (g : DimensionGraph) (dim : String) (w : ℚ) (anchors : List String) (limit : Nat)
    (hg : graphs dim = some g) (hw : 0 < w) :
    (query_multi graphs ⟨anchors, [(dim, w)], limit, 0⟩).nodes.map ScoredNode.node_id
      = (g.query ⟨anchors, limit, 0, .Both⟩).nodes.map RelatedNode.node_id
    ∧ (query_multi graphs ⟨anchors, [(dim, w)], limit, 0⟩).nodes.map ScoredNode.total_score
      = (g.query ⟨anchors, limit, 0, .Both⟩).nodes.map (fun n => n.weight * w) := by
  haveI : IsTotal RelatedNode (fun a b => b.weight ≤ a.weight) :=
    ⟨fun a b => le_total b.weight a.weight⟩
  haveI : IsTrans RelatedNode (fun a b => b.weight ≤ a.weight) :=
    ⟨fun _ _ _ hab hbc => le_trans hbc hab⟩
  have hw' : ¬ w ≤ 0 := not_le.mpr hw
  -- the common sorted candidate list of both queries
  have hbase_sorted : List.Pairwise (fun a b : RelatedNode => b.weight ≤ a.weight)
      (List.insertionSort (fun a b : RelatedNode => b.weight ≤ a.weight)
        ((dedupByNodeId (queryCollect g ⟨anchors, limit, 0, .Both⟩)).filter
          (fun n => !anchors.contains n.node_id))) :=
    List.sorted_insertionSort _ _
  have hq2 : (g.query ⟨anchors, limit * 2, 0, .Both⟩).nodes
      = (List.insertionSort (fun a b : RelatedNode => b.weight ≤ a.weight)
          ((dedupByNodeId (queryCollect g ⟨anchors, limit, 0, .Both⟩)).filter
            (fun n => !anchors.contains n.node_id))).take (limit * 2) := rfl
  have hq1 : (g.query ⟨anchors, limit, 0, .Both⟩).nodes
      = (List.insertionSort (fun a b : RelatedNode => b.weight ≤ a.weight)
          ((dedupByNodeId (queryCollect g ⟨anchors, limit, 0, .Both⟩)).filter
            (fun n => !anchors.contains n.node_id))).take limit := rfl
  -- the multi query's score list is one fresh ScoredNode per inner result node
  have hacc : ((g.query ⟨anchors, limit * 2, 0, .Both⟩).nodes).foldl
        (accumulateScore dim w) []
      = ((g.query ⟨anchors, limit * 2, 0, .Both⟩).nodes).map
          (fun n => ScoredNode.mk n.node_id (0 + n.weight * w)
            (assocInsert [] dim n.weight) [n.reason]) := by
    have h := accumulate_fresh dim w ((g.query ⟨anchors, limit * 2, 0, .Both⟩).nodes) []
      (by simp) (query_nodes_id_nodup g _)
    simpa using h
  have hmulti : (query_multi graphs ⟨anchors, [(dim, w)], limit, 0⟩).nodes
      = ((List.insertionSort (fun a b : ScoredNode => b.total_score ≤ a.total_score)
          (((g.query ⟨anchors, limit * 2, 0, .Both⟩).nodes).foldl
            (accumulateScore dim w) [])).filter
          (fun n => (0 : ℚ) ≤ n.total_score)).take limit := by
    unfold query_multi queryMultiLoop
    simp only [List.foldl_cons, List.foldl_nil, hw', if_false, hg]
  -- the mapped score list is already sorted by total score
  have hmap_sorted : List.Pairwise (fun a b : ScoredNode => b.total_score ≤ a.total_score)
      (((g.query ⟨anchors, limit * 2, 0, .Both⟩).nodes).map
        (fun n => ScoredNode.mk n.node_id (0 + n.weight * w)
          (assocInsert [] dim n.weight) [n.reason])) := by
    rw [List.pairwise_map]
    have hs : List.Pairwise (fun a b : RelatedNode => b.weight ≤ a.weight)
        ((g.query ⟨anchors, limit * 2, 0, .Both⟩).nodes) := by
      rw [hq2]
      exact List.Pairwise.sublist (List.take_sublist _ _) hbase_sorted
    refine hs.imp ?_
    intro a b hab
    simpa using mul_le_mul_of_nonneg_right hab (le_of_lt hw)
  have hsort_id : List.insertionSort (fun a b : ScoredNode => b.total_score ≤ a.total_score)
        (((g.query ⟨anchors, limit * 2, 0, .Both⟩).nodes).map
          (fun n => ScoredNode.mk n.node_id (0 + n.weight * w)
            (assocInsert [] dim n.weight) [n.reason]))
      = ((g.query ⟨anchors, limit * 2, 0, .Both⟩).nodes).map
          (fun n => ScoredNode.mk n.node_id (0 + n.weight * w)
            (assocInsert [] dim n.weight) [n.reason]) :=
    List.Sorted.insertionSort_eq hmap_sorted
  -- the min_score-0 filter keeps everything (collected weights are ≥ 0)
  have hfilter : (((g.query ⟨anchors, limit * 2, 0, .Both⟩).nodes).map
        (fun n => ScoredNode.mk n.node_id (0 + n.weight * w)
          (assocInsert [] dim n.weight) [n.reason])).filter
        (fun n => (0 : ℚ) ≤ n.total_score)
      = ((g.query ⟨anchors, limit * 2, 0, .Both⟩).nodes).map
          (fun n => ScoredNode.mk n.node_id (0 + n.weight * w)
            (assocInsert [] dim n.weight) [n.reason]) := by
    rw [List.filter_eq_self]
    intro s hs
    obtain ⟨n, hn, rfl⟩ := List.mem_map.mp hs
    have hcol := query_nodes_subset_collect g _ n hn
    have hwn : (0 : ℚ) ≤ n.weight := queryCollect_weight g _ n hcol
    simp only [decide_eq_true_eq]
    have : (0 : ℚ) ≤ n.weight * w := mul_nonneg hwn (le_of_lt hw)
    simpa using this
  have hkey : (query_multi graphs ⟨anchors, [(dim, w)], limit, 0⟩).nodes
      = ((g.query ⟨anchors, limit, 0, .Both⟩).nodes).map
          (fun n => ScoredNode.mk n.node_id (0 + n.weight * w)
            (assocInsert [] dim n.weight) [n.reason]) := by
    rw [hmulti, hacc, hsort_id, hfilter, hq2, hq1]
    simp only [List.map_take, List.take_take]
    congr 1
    omega
  constructor
  · rw [hkey, List.map_map]
    rfl
  · rw [hkey, List.map_map]
    apply List.map_congr_left
    intro n _
    simp

/-- A graph with one anchored edge of weight 1, for the C8 counterexample and
witness. -/
def c8Graph : DimensionGraph :=
  { dimension := "temporal"
    version := "1.0"
    metadata := ⟨2, 1⟩
    nodes := [⟨"A", ⟨none⟩⟩, ⟨"X", ⟨none⟩⟩]
    edges := [Edge.new "A" "X" 1 "t"] }

/-- The locator's graph lookup resolving only the dimension `"temporal"`. -/
def c8Graphs : String → Option DimensionGraph :=
  fun dimension => if dimension == "temporal" then some c8Graph else none

/-- C8 counterexample: with weight `w = 2` on the single dimension and a shared
threshold of 2, the multi-graph query returns `X` (total 1·2 = 2 ≥ 2) while the
single-graph query with `min_weight = 2` drops the weight-1 edge and returns
nothing — the two do not return the same set of ids. -/
theorem query_multi_single_dimension_counterexample :
    (query_multi c8Graphs ⟨["A"], [("temporal", 2)], 10, 2⟩).nodes.map ScoredNode.node_id
      ≠ (c8Graph.query ⟨["A"], 10, 2, .Both⟩).nodes.map RelatedNode.node_id := by
  have hsingle : (c8Graph.query ⟨["A"], 10, 2, .Both⟩).nodes = [] := by
    norm_num [DimensionGraph.query, queryCollect, collect_forward, collect_backward,
      DimensionGraph.edges_from, DimensionGraph.edges_to, dedupByNodeId,
      c8Graph, Edge.new, List.insertionSort]
  have hmulti : (query_multi c8Graphs ⟨["A"], [("temporal", 2)], 10, 2⟩).nodes.map
      ScoredNode.node_id = ["X"] := by
    norm_num [query_multi, queryMultiLoop, c8Graphs, DimensionGraph.query, queryCollect,
      collect_forward, collect_backward, DimensionGraph.edges_from, DimensionGraph.edges_to,
      dedupByNodeId, dedupStep, position, accumulateScore, assocInsert, c8Graph, Edge.new,
      List.insertionSort, List.orderedInsert]
  rw [hmulti, hsingle]
  simp

/-- Witness for the amended C8 theorem at a concrete locator, graph, weight
and request. -/
theorem query_multi_single_dimension_witness :
    (c8Graphs "temporal" = some c8Graph ∧ (0 : ℚ) < 2)
    ∧ ((query_multi c8Graphs ⟨["A"], [("temporal", 2)], 10, 0⟩).nodes.map ScoredNode.node_id
        = (c8Graph.query ⟨["A"], 10, 0, .Both⟩).nodes.map RelatedNode.node_id
      ∧ (query_multi c8Graphs ⟨["A"], [("temporal", 2)], 10, 0⟩).nodes.map ScoredNode.total_score
        = (c8Graph.query ⟨["A"], 10, 0, .Both⟩).nodes.map (fun n => n.weight * 2)) :=
  ⟨⟨by simp [c8Graphs], by norm_num⟩,
   query_multi_single_dimension c8Graphs c8Graph "temporal" 2 ["A"] 10
     (by simp [c8Graphs]) (by norm_num)⟩

/-! ### C1 — temporal insertion -/

/-- Invariant of the predecessor component of the temporal scan over the
processed prefix `seen`: either no processed node lies strictly before `ts`,
or the component holds a processed node of maximal timestamp strictly below
`ts`. -/
def PredOK (ts : Int) (seen : List Node) (o : Option (String × Int)) : Prop :=
  (o = none ∧ ∀ n ∈ seen, ∀ u, n.features.timestamp = some u → ¬ u < ts)
  ∨ (∃ n ∈ seen, ∃ u, o = some (n.id, u) ∧ n.features.timestamp = some u ∧ u < ts
      ∧ ∀ m ∈ seen, ∀ v, m.features.timestamp = some v → v < ts → v ≤ u)

/-- Invariant of the successor component: dual to `PredOK`. -/
def SuccOK (ts : Int) (seen : List Node) (o : Option (String × Int)) : Prop :=
  (o = none ∧ ∀ n ∈ seen, ∀ u, n.features.timestamp = some u → ¬ ts < u)
  ∨ (∃ n ∈ seen, ∃ u, o = some (n.id, u) ∧ n.features.timestamp = some u ∧ ts < u
      ∧ ∀ m ∈ seen, ∀ v, m.features.timestamp = some v → ts < v → u ≤ v)

/-- `PredOK` survives appending a node that is not strictly before `ts`. -/
theorem predOK_extend (ts : Int) (seen : List Node) (o : Option (String × Int))
    (node : Node) (hnode : ∀ u, node.features.timestamp = some u → ¬ u < ts)
    (h : PredOK ts seen o) : PredOK ts (seen ++ [node]) o := by
  rcases h with ⟨ho, hall⟩ | ⟨n, hn, u, ho, hu, hut, hmax⟩
  · refine Or.inl ⟨ho, ?_⟩
    intro m hm v hv
    rcases List.mem_append.mp hm with hm | hm
    · exact hall m hm v hv
    · simp only [List.mem_singleton] at hm
      subst hm
      exact hnode v hv
  · refine Or.inr ⟨n, List.mem_append_left _ hn, u, ho, hu, hut, ?_⟩
    intro m hm v hv hvt
    rcases List.mem_append.mp hm with hm | hm
    · exact hmax m hm v hv hvt
    · simp only [List.mem_singleton] at hm
      subst hm
      exact absurd hvt (hnode v hv)

/-- `SuccOK` survives appending a node that is not strictly after `ts`. -/
theorem succOK_extend (ts : Int) (seen : List Node) (o : Option (String × Int))
    (node : Node) (hnode : ∀ u, node.features.timestamp = some u → ¬ ts < u)
    (h : SuccOK ts seen o) : SuccOK ts (seen ++ [node]) o := by
  rcases h with ⟨ho, hall⟩ | ⟨n, hn, u, ho, hu, hut, hmin⟩
  · refine Or.inl ⟨ho, ?_⟩
    intro m hm v hv
    rcases List.mem_append.mp hm with hm | hm
    · exact hall m hm v hv
    · simp only [List.mem_singleton] at hm
      subst hm
      exact hnode v hv
  · refine Or.inr ⟨n, List.mem_append_left _ hn, u, ho, hu, hut, ?_⟩
    intro m hm v hv hvt
    rcases List.mem_append.mp hm with hm | hm
    · exact hmin m hm v hv hvt
    · simp only [List.mem_singleton] at hm
      subst hm
      exact absurd hvt (hnode v hv)

/-- One scan step preserves both invariants, extending the processed prefix. -/
theorem scan_step_preserves (ts : Int) (seen : List Node)
    (acc : Option (String × Int) × Option (String × Int)) (node : Node)
    (h : PredOK ts seen acc.1 ∧ SuccOK ts seen acc.2) :
    PredOK ts (seen ++ [node]) (temporalScanStep ts acc node).1
    ∧ SuccOK ts (seen ++ [node]) (temporalScanStep ts acc node).2 := by
  obtain ⟨hp, hs⟩ := h
  rcases hts : node.features.timestamp with _ | u
  · have hval : temporalScanStep ts acc node = acc := by
      simp [temporalScanStep, hts]
    rw [hval]
    exact ⟨predOK_extend ts seen acc.1 node (by simp [hts]) hp,
      succOK_extend ts seen acc.2 node (by simp [hts]) hs⟩
  · by_cases h1 : u < ts
    · have hs' : SuccOK ts (seen ++ [node]) acc.2 :=
        succOK_extend ts seen acc.2 node
          (by intro v hv; rw [hts] at hv; cases hv; omega) hs
      rcases hacc1 : acc.1 with _ | ⟨q, pu⟩
      · have hval : temporalScanStep ts acc node = (some (node.id, u), acc.2) := by
          simp [temporalScanStep, hts, h1, hacc1]
        rw [hval]
        refine ⟨Or.inr ⟨node, List.mem_append_right _ (by simp), u, rfl, hts, h1, ?_⟩, hs'⟩
        intro m hm v hv hvt
        rcases List.mem_append.mp hm with hm | hm
        · rcases hp with ⟨_, hall⟩ | ⟨n, _, u0, ho, _, _, _⟩
          · exact absurd hvt (hall m hm v hv)
          · rw [hacc1] at ho
            cases ho
        · simp only [List.mem_singleton] at hm
          subst hm
          rw [hts] at hv
          cases hv
          omega
      · rcases hp with ⟨ho, _⟩ | ⟨n, hn, u0, ho, hu0, hu0t, hmax⟩
        · rw [hacc1] at ho; cases ho
        · rw [hacc1] at ho
          have hqu : n.id = q ∧ u0 = pu := by
            have := ho.symm
            simpa using this
          obtain ⟨hq, hpu⟩ := hqu
          subst hpu
          by_cases h2 : u0 < u
          · have hval : temporalScanStep ts acc node = (some (node.id, u), acc.2) := by
              simp [temporalScanStep, hts, h1, hacc1, h2]
            rw [hval]
            refine ⟨Or.inr ⟨node, List.mem_append_right _ (by simp), u, rfl, hts, h1, ?_⟩,
              hs'⟩
            intro m hm v hv hvt
            rcases List.mem_append.mp hm with hm | hm
            · exact le_trans (hmax m hm v hv hvt) (le_of_lt h2)
            · simp only [List.mem_singleton] at hm
              subst hm
              rw [hts] at hv
              cases hv
              omega
          · have hval : temporalScanStep ts acc node = acc := by
              simp [temporalScanStep, hts, h1, hacc1, h2]
            rw [hval]
            refine ⟨Or.inr ⟨n, List.mem_append_left _ hn, u0, by rw [hacc1, hq], hu0,
              hu0t, ?_⟩, hs'⟩
            intro m hm v hv hvt
            rcases List.mem_append.mp hm with hm | hm
            · exact hmax m hm v hv hvt
            · simp only [List.mem_singleton] at hm
              subst hm
              rw [hts] at hv
              cases hv
              omega
    · by_cases h2 : ts < u
      · have hp' : PredOK ts (seen ++ [node]) acc.1 :=
          predOK_extend ts seen acc.1 node
            (by intro v hv; rw [hts] at hv; cases hv; omega) hp
        rcases hacc2 : acc.2 with _ | ⟨q, su⟩
        · have hval : temporalScanStep ts acc node = (acc.1, some (node.id, u)) := by
            simp [temporalScanStep, hts, h1, h2, hacc2]
          rw [hval]
          refine ⟨hp', Or.inr ⟨node, List.mem_append_right _ (by simp), u, rfl, hts, h2, ?_⟩⟩
          intro m hm v hv hvt
          rcases List.mem_append.mp hm with hm | hm
          · rcases hs with ⟨_, hall⟩ | ⟨n, _, u0, ho, _, _, _⟩
            · exact absurd hvt (hall m hm v hv)
            · rw [hacc2] at ho
              cases ho
          · simp only [List.mem_singleton] at hm
            subst hm
            rw [hts] at hv
            cases hv
            omega
        · rcases hs with ⟨ho, _⟩ | ⟨n, hn, u0, ho, hu0, hu0t, hmin⟩
          · rw [hacc2] at ho; cases ho
          · rw [hacc2] at ho
            have hqu : n.id = q ∧ u0 = su := by
              have := ho.symm
              simpa using this
            obtain ⟨hq, hsu⟩ := hqu
            subst hsu
            by_cases h3 : u < u0
            · have hval : temporalScanStep ts acc node = (acc.1, some (node.id, u)) := by
                simp [temporalScanStep, hts, h1, h2, hacc2, h3]
              rw [hval]
              refine ⟨hp', Or.inr ⟨node, List.mem_append_right _ (by simp), u, rfl, hts,
                h2, ?_⟩⟩
              intro m hm v hv hvt
              rcases List.mem_append.mp hm with hm | hm
              · exact le_trans (le_of_lt h3) (hmin m hm v hv hvt)
              · simp only [List.mem_singleton] at hm
                subst hm
                rw [hts] at hv
                cases hv
                omega
            · have hval : temporalScanStep ts acc node = acc := by
                simp [temporalScanStep, hts, h1, h2, hacc2, h3]
              rw [hval]
              refine ⟨hp', Or.inr ⟨n, List.mem_append_left _ hn, u0, by rw [hacc2, hq],
                hu0, hu0t, ?_⟩⟩
              intro m hm v hv hvt
              rcases List.mem_append.mp hm with hm | hm
              · exact hmin m hm v hv hvt
              · simp only [List.mem_singleton] at hm
                subst hm
                rw [hts] at hv
                cases hv
                omega
      · have hval : temporalScanStep ts acc node = acc := by
          simp [temporalScanStep, hts, h1, h2]
        rw [hval]
        exact ⟨predOK_extend ts seen acc.1 node
            (by intro v hv; rw [hts] at hv; cases hv; omega) hp,
          succOK_extend ts seen acc.2 node
            (by intro v hv; rw [hts] at hv; cases hv; omega) hs⟩

/-- The whole scan establishes both invariants over all nodes. -/
theorem scan_foldl_inv (ts : Int) :
    ∀ (l seen : List Node) (acc : Option (String × Int) × Option (String × Int)),
      PredOK ts seen acc.1 ∧ SuccOK ts seen acc.2 →
      PredOK ts (seen ++ l) ((l.foldl (temporalScanStep ts) acc).1)
      ∧ SuccOK ts (seen ++ l) ((l.foldl (temporalScanStep ts) acc).2) := by
  intro l
  induction l with
  | nil =>
    intro seen acc h
    simpa using h
  | cons x xs ih =>
    intro seen acc h
    simp only [List.foldl_cons]
    have h1 := scan_step_preserves ts seen acc x h
    have h2 := ih (seen ++ [x]) _ h1
    simpa [List.append_assoc] using h2

/-- Characterization of `find_temporal_neighbors_internal` when a unique
closest predecessor `P` and a unique closest successor `S` exist. -/
theorem find_temporal_neighbors_eq (g : DimensionGraph) (t : Int)
    (P S : Node) (tp tsucc : Int)
    (hP : P ∈ g.nodes) (hPts : P.features.timestamp = some tp) (htp : tp < t)
    (hmax : ∀ n ∈ g.nodes, ∀ u, n.features.timestamp = some u → u < t → u ≤ tp)
    (hPuniq : ∀ n ∈ g.nodes, n.features.timestamp = some tp → n = P)
    (hS : S ∈ g.nodes) (hSts : S.features.timestamp = some tsucc) (htsucc : t < tsucc)
    (hmin : ∀ n ∈ g.nodes, ∀ u, n.features.timestamp = some u → t < u → tsucc ≤ u)
    (hSuniq : ∀ n ∈ g.nodes, n.features.timestamp = some tsucc → n = S) :
    find_temporal_neighbors_internal g t = (some P.id, some S.id) := by
  have h0 : PredOK t ([] : List Node) (none : Option (String × Int))
      ∧ SuccOK t ([] : List Node) none := by
    exact ⟨Or.inl ⟨rfl, by simp⟩, Or.inl ⟨rfl, by simp⟩⟩
  have hfold := scan_foldl_inv t g.nodes [] (none, none) h0
  simp only [List.nil_append] at hfold
  obtain ⟨hpred, hsucc⟩ := hfold
  have hpred_eq : (g.nodes.foldl (temporalScanStep t) (none, none)).1 = some (P.id, tp) := by
    rcases hpred with ⟨_, hall⟩ | ⟨n, hn, u, ho, hu, hut, hmaxu⟩
    · exact absurd htp (hall P hP tp hPts)
    · have h1 : u ≤ tp := hmax n hn u hu hut
      have h2 : tp ≤ u := hmaxu P hP tp hPts htp
      have hu_eq : u = tp := le_antisymm h1 h2
      subst hu_eq
      have hnP : n = P := hPuniq n hn hu
      subst hnP
      exact ho
  have hsucc_eq : (g.nodes.foldl (temporalScanStep t) (none, none)).2
      = some (S.id, tsucc) := by
    rcases hsucc with ⟨_, hall⟩ | ⟨n, hn, u, ho, hu, hut, hminu⟩
    · exact absurd htsucc (hall S hS tsucc hSts)
    · have h1 : tsucc ≤ u := hmin n hn u hu hut
      have h2 : u ≤ tsucc := hminu S hS tsucc hSts htsucc
      have hu_eq : u = tsucc := le_antisymm h2 h1
      subst hu_eq
      have hnS : n = S := hSuniq n hn hu
      subst hnS
      exact ho
  unfold find_temporal_neighbors_internal
  simp only [hpred_eq, hsucc_eq]
  rfl

/-- `find?` on a list with duplicate-free ids returns the member itself. -/
theorem find?_eq_of_mem_nodup : ∀ (l : List Node) (P : Node),
    P ∈ l → (l.map Node.id).Nodup → l.find? (fun n => n.id == P.id) = some P := by
  intro l
  induction l with
  | nil => intro P hP _; simp at hP
  | cons x t ih =>
    intro P hP hnd
    simp only [List.map_cons, List.nodup_cons] at hnd
    rcases List.mem_cons.mp hP with rfl | hP
    · simp [List.find?]
    · have hx : (x.id == P.id) = false := by
        have : x.id ≠ P.id := by
          intro hc
          exact hnd.1 (hc ▸ List.mem_map_of_mem Node.id hP)
        simpa using this
      rw [List.find?]
      rw [hx]
      exact ih P hP hnd.2

/-- `remove_edge` leaves the node list unchanged. -/
theorem remove_edge_nodes (g : DimensionGraph) (s t : String) :
    (g.remove_edge s t).nodes = g.nodes := by
  unfold DimensionGraph.remove_edge
  cases position (fun e => e.source == s && e.target == t) g.edges <;> rfl

/-- `add_node` appends the node and keeps the edges. -/
theorem add_node_nodes (g : DimensionGraph) (n : Node) :
    (g.add_node n).nodes = g.nodes ++ [n] := rfl

theorem add_node_edges (g : DimensionGraph) (n : Node) :
    (g.add_node n).edges = g.edges := rfl

/-- `add_edge` appends the edge and keeps the nodes. -/
theorem add_edge_edges (g : DimensionGraph) (e : Edge) :
    (g.add_edge e).edges = g.edges ++ [e] := rfl

theorem add_edge_nodes (g : DimensionGraph) (e : Edge) :
    (g.add_edge e).nodes = g.nodes := rfl

/-- After `remove_edge`, a graph that had at most one matching edge has none. -/
theorem remove_edge_no_match (g : DimensionGraph) (s t : String)
    (hone : g.edges.countP (fun e => e.source == s && e.target == t) ≤ 1) :
    ∀ e ∈ (g.remove_edge s t).edges, ¬(e.source = s ∧ e.target = t) := by
  unfold DimensionGraph.remove_edge
  cases hpos : position (fun e => e.source == s && e.target == t) g.edges with
  | none =>
    intro e he hc
    have := (position_eq_none_iff _ _).mp hpos e he
    simp [hc.1, hc.2] at this
  | some i =>
    intro e he hc
    have hcount := countP_eraseIdx_position _ g.edges i hpos
    have hzero : (g.edges.eraseIdx i).countP
        (fun e => e.source == s && e.target == t) = 0 := by
      omega
    have hfalse := List.countP_eq_zero.mp hzero e he
    simp [hc.1, hc.2] at hfalse

/-- C1: inserting a node `N` with timestamp `t` into a temporal graph that has
a unique closest predecessor `P` (greatest timestamp strictly below `t`) and a
unique closest successor `S` (smallest timestamp strictly above `t`) — nodes
at exactly `t` being ignored — removes the pre-existing edge `P→S`, adds `N`,
and adds the edges `P→N` with weight `cw(t − P.t)` and `N→S` with weight
`cw(S.t − t)`, so that afterwards the graph contains `P→N` and `N→S` and no
edge `P→S` and reports 2 created edges; and inserting a first-ever node into
an empty graph adds the node with zero edges. -/
theorem insert_temporal_node_spec (g : DimensionGraph) (node P S : Node)
    (t tp tsucc : Int) (cw : Int → ℚ) (fmt : Int → String)
    (hnodup : (g.nodes.map Node.id).Nodup)
    (hts : node.features.timestamp = some t)
    (hfresh : node.id ∉ g.nodes.map Node.id)
    (hP : P ∈ g.nodes) (hPts : P.features.timestamp = some tp) (htp : tp < t)
    (hmax : ∀ n ∈ g.nodes, ∀ u, n.features.timestamp = some u → u < t → u ≤ tp)
    (hPuniq : ∀ n ∈ g.nodes, n.features.timestamp = some tp → n = P)
    (hS : S ∈ g.nodes) (hSts : S.features.timestamp = some tsucc) (htsucc : t < tsucc)
    (hmin : ∀ n ∈ g.nodes, ∀ u, n.features.timestamp = some u → t < u → tsucc ≤ u)
    (hSuniq : ∀ n ∈ g.nodes, n.features.timestamp = some tsucc → n = S)
    (hone : g.edges.countP (fun e => e.source == P.id && e.target == S.id) ≤ 1) :
    (∃ g', insert_temporal_node g node cw fmt = Except.ok (2, g')
      ∧ Edge.new P.id node.id (cw (t - tp)) (fmt (t - tp)) ∈ g'.edges
      ∧ Edge.new node.id S.id (cw (tsucc - t)) (fmt (tsucc - t)) ∈ g'.edges
      ∧ (∀ e ∈ g'.edges, ¬(e.source = P.id ∧ e.target = S.id))
      ∧ node ∈ g'.nodes)
    ∧ (∀ (dim : String) (nd : Node) (t' : Int) (cw' : Int → ℚ) (fmt' : Int → String),
        nd.features.timestamp = some t' →
        insert_temporal_node (DimensionGraph.new dim) nd cw' fmt'
          = Except.ok (0, (DimensionGraph.new dim).add_node nd)
        ∧ ((DimensionGraph.new dim).add_node nd).edges = []) := by
  have hfind := find_temporal_neighbors_eq g t P S tp tsucc hP hPts htp hmax hPuniq
    hS hSts htsucc hmin hSuniq
  have habs1 : |t - tp| = t - tp := abs_of_pos (by omega)
  have habs2 : |tsucc - t| = tsucc - t := abs_of_pos (by omega)
  have hnodup' : ((g.nodes ++ [node]).map Node.id).Nodup := by
    simp only [List.map_append, List.map_cons, List.map_nil]
    refine List.Nodup.append hnodup (by simp) ?_
    intro x hx hy
    simp only [List.mem_singleton] at hy
    exact hfresh (hy ▸ hx)
  have hg1nodes : ((g.remove_edge P.id S.id).add_node node).nodes = g.nodes ++ [node] := by
    rw [add_node_nodes, remove_edge_nodes]
  have hget1 : ((g.remove_edge P.id S.id).add_node node).get_node P.id = some P := by
    unfold DimensionGraph.get_node
    rw [hg1nodes]
    exact find?_eq_of_mem_nodup _ P (List.mem_append_left _ hP) hnodup'
  have hget2 : (((g.remove_edge P.id S.id).add_node node).add_edge
      (Edge.new P.id node.id (cw (t - tp)) (fmt (t - tp)))).get_node S.id = some S := by
    unfold DimensionGraph.get_node
    rw [add_edge_nodes, hg1nodes]
    exact find?_eq_of_mem_nodup _ S (List.mem_append_left _ hS) hnodup'
  have hSid : node.id ≠ S.id := by
    intro hc
    exact hfresh (hc ▸ List.mem_map_of_mem Node.id hS)
  have hPid : node.id ≠ P.id := by
    intro hc
    exact hfresh (hc ▸ List.mem_map_of_mem Node.id hP)
  constructor
  · refine ⟨((((g.remove_edge P.id S.id).add_node node).add_edge
        (Edge.new P.id node.id (cw (t - tp)) (fmt (t - tp)))).add_edge
        (Edge.new node.id S.id (cw (tsucc - t)) (fmt (tsucc - t)))), ?_, ?_, ?_, ?_, ?_⟩
    · unfold insert_temporal_node
      simp only [hts, hfind, habs1, habs2, hget1, hPts, hget2, hSts]
    · simp [add_edge_edges]
    · simp [add_edge_edges]
    · intro e he
      simp only [add_edge_edges, add_node_edges, List.mem_append,
        List.mem_singleton] at he
      rcases he with (he | he) | he
      · exact remove_edge_no_match g P.id S.id hone e he
      · subst he
        intro hc
        exact hSid hc.2
      · subst he
        intro hc
        exact hPid (hc.1.symm ▸ rfl)
    · simp [add_edge_nodes, add_node_nodes, remove_edge_nodes]
  · intro dim nd t' cw' fmt' hts'
    constructor
    · unfold insert_temporal_node
      simp [hts', find_temporal_neighbors_internal, DimensionGraph.new]
    · rfl

/-- A three-instant temporal chain candidate: `p` at 10, `s` at 30, with the
chain edge `p→s`; the new node `n` arrives at 20. -/
def c1Graph : DimensionGraph :=
  { dimension := "temporal"
    version := "1.0"
    metadata := ⟨2, 1⟩
    nodes := [⟨"p", ⟨some 10⟩⟩, ⟨"s", ⟨some 30⟩⟩]
    edges := [Edge.new "p" "s" 1 "r"] }

/-- The node inserted between `p` and `s`. -/
def c1Node : Node := ⟨"n", ⟨some 20⟩⟩

/-- Witness for the temporal-insertion theorem at the concrete chain. -/
theorem insert_temporal_node_spec_witness :
    (c1Graph.nodes.map Node.id).Nodup
    ∧ ∃ g', insert_temporal_node c1Graph c1Node (fun _ => (1 : ℚ)) (fun _ => "d")
        = Except.ok (2, g') ∧ c1Node ∈ g'.nodes := by
  refine ⟨by decide, ?_⟩
  obtain ⟨⟨g', h1, _, _, _, h5⟩, _⟩ :=
    insert_temporal_node_spec c1Graph c1Node ⟨"p", ⟨some 10⟩⟩ ⟨"s", ⟨some 30⟩⟩
      20 10 30 (fun _ => (1 : ℚ)) (fun _ => "d")
      (by decide) rfl (by decide)
      (by decide) rfl (by decide)
      (by
        intro n hn u hu hlt
        simp only [c1Graph, List.mem_cons, List.not_mem_nil, or_false] at hn
        rcases hn with rfl | rfl <;> simp only [] at hu <;> cases hu <;> omega)
      (by
        intro n hn hu
        simp only [c1Graph, List.mem_cons, List.not_mem_nil, or_false] at hn
        rcases hn with rfl | rfl
        · rfl
        · cases hu)
      (by decide) rfl (by decide)
      (by
        intro n hn u hu hlt
        simp only [c1Graph, List.mem_cons, List.not_mem_nil, or_false] at hn
        rcases hn with rfl | rfl <;> simp only [] at hu <;> cases hu <;> omega)
      (by
        intro n hn hu
        simp only [c1Graph, List.mem_cons, List.not_mem_nil, or_false] at hn
        rcases hn with rfl | rfl
        · cases hu
        · rfl)
      (by decide)
  exact ⟨g', h1, h5⟩
